import Mathlib

/-!
Formal model of the drawing application core (stroke model, edit history,
viewport transform, hit testing and shape recognition) from src/js/canvas.js
and src/js/tools.js, together with theorems checking the specification
claims against this model.

Conventions.
JavaScript numbers are IEEE doubles; the model treats every numeric value
exactly, using the rationals for all coordinate arithmetic.  Floating point
rounding is outside the scope of the model (the specification itself asks
only for correctness up to floating point tolerance).  Where the code
compares a square root against a bound and both sides are otherwise
rational, the comparison is embedded exactly in the rationals by squaring
(Math.hypot dx dy <= t holds over the reals iff 0 <= t and
dx^2 + dy^2 <= t^2); where the code sums square roots (path length,
average radius in snapToShape) no exact rational form exists, and those
conditions are modelled literally over the reals.

The repository file src/js/canvas.js contains two revisions of the same
module, separated by a marker.  The second (later) revision is modelled
here; it is the one with image strokes and the segment hit test.  The two
revisions of clearAll genuinely diverge, so both are modelled: clearAll
(second revision, wipes both history stacks and records nothing) and
clearAllV1 (first revision, pushes a clear record and empties only the
redo stack).

JavaScript arrays used as stacks push and pop at the end of the array;
the model keeps the stack top at the head of a Lean list, so Array.push
becomes cons and Array.pop becomes taking the tail.
-/

/-- A point with logical (document space) coordinates, src/js/canvas.js
uses plain objects with numeric fields x and y. -/
structure Point where
  x : ℚ
  y : ℚ
deriving DecidableEq

/-- The kind tag of a path stroke.  The code stores it as the string field
stroke.type with values pencil, pen, highlighter and shape. -/
inductive PathKind where
  | pencil
  | pen
  | highlighter
  | shape
deriving DecidableEq

/-- A stroke of the document.  Path strokes carry a point list, colour,
size and opacity; image strokes (second revision of canvas.js) carry a
source reference, origin, width, height and opacity.  The extra value
missing models the JavaScript value undefined, which can be read out of an
array when an index is out of range. -/
inductive Stroke where
  | path (kind : PathKind) (points : List Point) (color : String)
      (size : ℚ) (opacity : ℚ)
  | image (src : String) (x : ℚ) (y : ℚ) (width : ℚ) (height : ℚ)
      (opacity : ℚ)
  | missing
deriving DecidableEq

/-- The point list of a stroke.  In the code path strokes have a points
field; image strokes have none (reading it yields undefined), modelled as
the empty list.  Every place in the modelled code that reads points either
guards on the stroke kind first or only ever sees path strokes. -/
def strokePoints : Stroke → List Point
  | .path _ pts _ _ _ => pts
  | .image _ _ _ _ _ _ => []
  | .missing => []

/-- An entry of the undo or redo stack, from the object literals pushed in
canvas.js: an action string plus a payload.  add carries the stroke that
was appended; remove carries the removed stroke and its index;
removeMultiple carries the (stroke, index) pairs collected by
deleteStrokes; clear carries the full previous stroke list. -/
inductive EditRecord where
  | add (stroke : Stroke)
  | remove (stroke : Stroke) (index : ℕ)
  | removeMultiple (strokes : List (Stroke × ℕ))
  | clear (strokes : List Stroke)
deriving DecidableEq

/-- The constant this.minScale = 0.25 of the Canvas object. -/
def minScale : ℚ := 1/4

/-- The constant this.maxScale = 4 of the Canvas object. -/
def maxScale : ℚ := 4

/-- The mutable state of the Canvas singleton that the modelled operations
touch: the stroke list, the in progress stroke, the two history stacks,
the pan offset and zoom scale, the window size and the background key. -/
structure CanvasState where
  strokes : List Stroke
  currentStroke : Option Stroke
  undoStack : List EditRecord
  redoStack : List EditRecord
  offsetX : ℚ
  offsetY : ℚ
  scale : ℚ
  width : ℚ
  height : ℚ
  currentBackground : String
deriving DecidableEq

/-- Canvas.toScreen: logical to screen coordinates,
x * scale + offsetX and y * scale + offsetY. -/
def toScreen (c : CanvasState) (x y : ℚ) : Point :=
  ⟨x * c.scale + c.offsetX, y * c.scale + c.offsetY⟩

/-- Canvas.toCanvas: screen to logical coordinates,
(x - offsetX) / scale and (y - offsetY) / scale. -/
def toCanvas (c : CanvasState) (x y : ℚ) : Point :=
  ⟨(x - c.offsetX) / c.scale, (y - c.offsetY) / c.scale⟩

/-- Canvas.endStroke: when a current stroke exists and has at least one
point, append it to the stroke list, push an add record, empty the redo
stack, reset the current stroke and report true; otherwise reset the
current stroke and report false. -/
def endStroke (c : CanvasState) : CanvasState × Bool :=
  match c.currentStroke with
  | some s =>
      if (strokePoints s).length > 0 then
        ({ c with strokes := c.strokes ++ [s],
                  undoStack := .add s :: c.undoStack,
                  redoStack := [],
                  currentStroke := none }, true)
      else ({ c with currentStroke := none }, false)
  | none => ({ c with currentStroke := none }, false)

/-- The image stroke built by Canvas.addImageStroke: placed so that it is
centred on the centre of the viewport, converted to logical coordinates
under the current transform. -/
def imageStrokeOf (c : CanvasState) (src : String) (imgWidth imgHeight : ℚ) :
    Stroke :=
  let centerCanvas := toCanvas c (c.width / 2) (c.height / 2)
  .image src (centerCanvas.x - imgWidth / 2) (centerCanvas.y - imgHeight / 2)
    imgWidth imgHeight 1

/-- Canvas.addImageStroke: append the centred image stroke, push an add
record and empty the redo stack.  The JavaScript function also returns the
stroke; the model returns the updated state. -/
def addImageStroke (c : CanvasState) (src : String) (imgWidth imgHeight : ℚ) :
    CanvasState :=
  let stroke := imageStrokeOf c src imgWidth imgHeight
  { c with strokes := c.strokes ++ [stroke],
           undoStack := .add stroke :: c.undoStack,
           redoStack := [] }

/-- Canvas.removeStroke: when the index is in range, splice the stroke
out, push a remove record carrying the stroke and its index, empty the
redo stack and report true; otherwise report false.  The code also checks
index >= 0, which the use of a natural number index encodes. -/
def removeStroke (c : CanvasState) (index : ℕ) : CanvasState × Bool :=
  if index < c.strokes.length then
    ({ c with strokes := c.strokes.eraseIdx index,
              undoStack :=
                .remove (c.strokes.getD index .missing) index :: c.undoStack,
              redoStack := [] }, true)
  else (c, false)

/-- The sort performed by indices.sort((a, b) => b - a) in deleteStrokes:
numeric descending order.  Array.prototype.sort is stable, as is
insertion sort. -/
def sortDesc (l : List ℕ) : List ℕ :=
  l.insertionSort (fun a b => b ≤ a)

/-- The sort performed by action.strokes.sort((a, b) => a.index - b.index)
in the removeMultiple branch of undo: ascending by recorded index,
stable. -/
def sortPairsAsc (l : List (Stroke × ℕ)) : List (Stroke × ℕ) :=
  l.insertionSort (fun p q => p.2 ≤ q.2)

/-- Canvas.deleteStrokes: nothing happens on an empty index list;
otherwise the indices are sorted descending and removed one by one,
each iteration reading the stroke at the index out of the partially
erased list (exactly as this.strokes[index] does) and recording the
(stroke, index) pair; one removeMultiple record is pushed and the redo
stack is emptied. -/
def deleteStrokes (c : CanvasState) (indices : List ℕ) : CanvasState :=
  if indices.isEmpty then c
  else
    let sorted := sortDesc indices
    let res := sorted.foldl
      (fun (acc : List (Stroke × ℕ) × List Stroke) index =>
        (acc.1 ++ [(acc.2.getD index .missing, index)], acc.2.eraseIdx index))
      ([], c.strokes)
    { c with strokes := res.2,
             undoStack := .removeMultiple res.1 :: c.undoStack,
             redoStack := [] }

/-- Translation of one stroke by (dx, dy) as performed inside the loop of
Canvas.moveStrokes (second revision): image strokes move their origin
only, path strokes move every point.  The missing case is unreachable
because the loop skips missing strokes. -/
def translateStroke (s : Stroke) (dx dy : ℚ) : Stroke :=
  match s with
  | .image src x y w h op => .image src (x + dx) (y + dy) w h op
  | .path kind pts color size op =>
      .path kind (pts.map (fun p => ⟨p.x + dx, p.y + dy⟩)) color size op
  | .missing => .missing

/-- One iteration of the Canvas.moveStrokes loop: read the stroke at the
index, skip it when it is missing (the falsy check on
this.strokes[index]), and otherwise store back its translation. -/
def moveStrokeAt (l : List Stroke) (dx dy : ℚ) (index : ℕ) : List Stroke :=
  if l.getD index Stroke.missing = Stroke.missing then l
  else l.set index (translateStroke (l.getD index Stroke.missing) dx dy)

/-- Canvas.moveStrokes: run the translation loop over the listed indices.
The history stacks are not touched. -/
def moveStrokes (c : CanvasState) (indices : List ℕ) (dx dy : ℚ) :
    CanvasState :=
  if indices.isEmpty then c
  else
    { c with strokes := (indices.foldl
        (fun l index => moveStrokeAt l dx dy index) c.strokes) }

/-- The clamped target scale used by Canvas.setScale:
Math.max(minScale, Math.min(maxScale, newScale)). -/
def clampScale (newScale : ℚ) : ℚ :=
  max minScale (min maxScale newScale)

/-- Canvas.setScale: clamp the target scale; do nothing when the clamped
value equals the current scale; otherwise convert the focal point to
logical coordinates under the old transform, install the new scale and
recompute the offset so that the focal logical point stays under the same
screen position.  The scaleRatio local of the code is unused there and is
omitted. -/
def setScale (c : CanvasState) (newScale centerX centerY : ℚ) : CanvasState :=
  let clamped := clampScale newScale
  if clamped = c.scale then c
  else
    let canvasX := (centerX - c.offsetX) / c.scale
    let canvasY := (centerY - c.offsetY) / c.scale
    { c with scale := clamped,
             offsetX := centerX - canvasX * clamped,
             offsetY := centerY - canvasY * clamped }

/-- The new scale computed by Tools.handlePinchMove before it calls
Canvas.setScale: the initial scale times the ratio of the two pinch
distances, pre-clamped to [0.25, 4].  The pinch distances themselves come
from Math.hypot on touch coordinates; the model quantifies over the
resulting ratio. -/
def pinchNewScale (initialScale scaleChange : ℚ) : ℚ :=
  max (25/100) (min 4 (initialScale * scaleChange))

/-- Splice insertion: this.strokes.splice(i, 0, s) for a non negative
index, inserting s before position i and clamping to the end of the list
when i exceeds the length, exactly as Array.prototype.splice does. -/
def spliceIns (l : List Stroke) (i : ℕ) (s : Stroke) : List Stroke :=
  l.take i ++ s :: l.drop i

/-- The stroke list produced by one branch of Canvas.undo: add pops the
last stroke, remove reinserts the recorded stroke at its recorded index,
removeMultiple reinserts every recorded pair in ascending index order,
clear restores the recorded previous list. -/
def undoStrokes : EditRecord → List Stroke → List Stroke
  | .add _, l => l.dropLast
  | .remove s i, l => spliceIns l i s
  | .removeMultiple items, l =>
      (sortPairsAsc items).foldl (fun acc it => spliceIns acc it.2 it.1) l
  | .clear prev, _ => prev

/-- The record as pushed onto the redo stack by Canvas.undo.  The
removeMultiple branch sorts action.strokes in place before applying it,
so the record that reaches the redo stack carries the ascending ordering;
the other branches push the record unchanged. -/
def undoPushRec : EditRecord → EditRecord
  | .removeMultiple items => .removeMultiple (sortPairsAsc items)
  | r => r

/-- Canvas.undo: report false on an empty undo stack, otherwise pop the
top record, apply its inverse to the stroke list, push the record onto the
redo stack and report true. -/
def undo (c : CanvasState) : CanvasState × Bool :=
  match c.undoStack with
  | [] => (c, false)
  | r :: rest =>
      ({ c with strokes := undoStrokes r c.strokes,
                undoStack := rest,
                redoStack := undoPushRec r :: c.redoStack }, true)

/-- The stroke list produced by one branch of Canvas.redo: add re-appends
the stroke, remove splices out at the recorded index, removeMultiple maps
out the recorded indices, sorts them descending and splices each out,
clear empties the list. -/
def redoStrokes : EditRecord → List Stroke → List Stroke
  | .add s, l => l ++ [s]
  | .remove _ i, l => l.eraseIdx i
  | .removeMultiple items, l =>
      (sortDesc (items.map (fun it => it.2))).foldl
        (fun acc i => acc.eraseIdx i) l
  | .clear _, _ => []

/-- Canvas.redo: report false on an empty redo stack, otherwise pop the
top record, re-apply its forward effect to the stroke list, push the
record onto the undo stack and report true. -/
def redo (c : CanvasState) : CanvasState × Bool :=
  match c.redoStack with
  | [] => (c, false)
  | r :: rest =>
      ({ c with strokes := redoStrokes r c.strokes,
                redoStack := rest,
                undoStack := r :: c.undoStack }, true)

/-- Canvas.clearAll, second revision (the one marked permanent in its
comment): when strokes exist, empty the stroke list and wipe both history
stacks; no record is pushed. -/
def clearAll (c : CanvasState) : CanvasState :=
  if c.strokes.isEmpty then c
  else { c with strokes := [], undoStack := [], redoStack := [] }

/-- Canvas.clearAll, first revision: when strokes exist, push a clear
record carrying a copy of the stroke list, empty the redo stack and empty
the stroke list. -/
def clearAllV1 (c : CanvasState) : CanvasState :=
  if c.strokes.isEmpty then c
  else { c with strokes := [],
                undoStack := .clear c.strokes :: c.undoStack,
                redoStack := [] }

/-- A saved document state as consumed by Canvas.loadState.  Every field
may be absent, which the code covers with JavaScript or-defaults. -/
structure SavedState where
  strokes : Option (List Stroke)
  background : Option String
  offsetX : Option ℚ
  offsetY : Option ℚ
  scale : Option ℚ
deriving DecidableEq

/-- The JavaScript expression v || d for a numeric v: d when v is absent
or zero (zero is falsy), v otherwise. -/
def jsOrNum (v : Option ℚ) (d : ℚ) : ℚ :=
  match v with
  | none => d
  | some x => if x = 0 then d else x

/-- The JavaScript expression v || d for a string v: d when v is absent or
empty (the empty string is falsy), v otherwise. -/
def jsOrStr (v : Option String) (d : String) : String :=
  match v with
  | none => d
  | some s => if s = ("") then d else s

/-- Canvas.loadState: nothing happens on a null state; otherwise install
the saved strokes (empty when absent), background, offsets and scale with
their or-defaults, and reset both history stacks to empty. -/
def loadState (c : CanvasState) (state : Option SavedState) : CanvasState :=
  match state with
  | none => c
  | some s =>
      { c with strokes := s.strokes.getD [],
               currentBackground := jsOrStr s.background ("grid-light"),
               offsetX := jsOrNum s.offsetX 0,
               offsetY := jsOrNum s.offsetY 0,
               scale := jsOrNum s.scale 1,
               undoStack := [],
               redoStack := [] }

/-- Canvas.reset: empty document, cleared history, identity viewport and
the default background. -/
def reset (c : CanvasState) : CanvasState :=
  { c with strokes := [],
           currentStroke := none,
           undoStack := [],
           redoStack := [],
           offsetX := 0,
           offsetY := 0,
           scale := 1,
           currentBackground := ("grid-light") }

/-- Exact rational rendering of the comparison
Math.hypot dx dy <= t: over the reals the square root of dx^2 + dy^2 is
at most t iff t is non negative and dx^2 + dy^2 <= t^2. -/
def hypotLe (dx dy t : ℚ) : Bool :=
  decide (0 ≤ t ∧ dx ^ 2 + dy ^ 2 ≤ t ^ 2)

/-- Exact rendering of
Canvas.pointToSegmentDistance(p, a, b) <= t: the projection parameter is
computed rationally exactly as in the code, clamped to [0, 1], and the
final hypot comparison is embedded by squaring. -/
def segDistLe (p a b : Point) (t : ℚ) : Bool :=
  let dx := b.x - a.x
  let dy := b.y - a.y
  let lengthSquared := dx * dx + dy * dy
  if lengthSquared = 0 then hypotLe (p.x - a.x) (p.y - a.y) t
  else
    let t0 := ((p.x - a.x) * dx + (p.y - a.y) * dy) / lengthSquared
    let tc := max 0 (min 1 t0)
    hypotLe (p.x - (a.x + tc * dx)) (p.y - (a.y + tc * dy)) t

/-- The per stroke hit test of Canvas.findStrokeAt (second revision):
image strokes use their bounding box expanded by the scaled threshold;
path strokes hit when any point, or any segment between consecutive
points (only checked when there are at least two points), lies within
scaledThreshold + size / 2 of the query point.  A missing stroke can
never be hit. -/
def hitStroke (canvasPoint : Point) (scaledThreshold : ℚ) : Stroke → Bool
  | .image _ x y w h _ =>
      decide (x - scaledThreshold ≤ canvasPoint.x ∧
        canvasPoint.x ≤ x + w + scaledThreshold ∧
        y - scaledThreshold ≤ canvasPoint.y ∧
        canvasPoint.y ≤ y + h + scaledThreshold)
  | .path _ pts _ size _ =>
      let hitThreshold := scaledThreshold + size / 2
      pts.any (fun p =>
        hypotLe (p.x - canvasPoint.x) (p.y - canvasPoint.y) hitThreshold) ||
      (decide (1 < pts.length) &&
        (pts.zip pts.tail).any (fun pq =>
          segDistLe canvasPoint pq.1 pq.2 hitThreshold))
  | .missing => false

/-- The descending index loop of Canvas.findStrokeAt: test index i - 1,
then i - 2 and so on; -1 when nothing is hit. -/
def findLoop (l : List Stroke) (canvasPoint : Point) (scaledThreshold : ℚ) :
    ℕ → ℤ
  | 0 => -1
  | i + 1 =>
      if hitStroke canvasPoint scaledThreshold (l.getD i Stroke.missing) then
        (i : ℤ)
      else findLoop l canvasPoint scaledThreshold i

/-- Canvas.findStrokeAt (second revision): convert the query point to
logical coordinates, scale the threshold by 1 / scale and scan the stroke
list from the top of the z order. -/
def findStrokeAt (c : CanvasState) (x y threshold : ℚ) : ℤ :=
  let canvasPoint := toCanvas c x y
  let scaledThreshold := threshold / c.scale
  findLoop c.strokes canvasPoint scaledThreshold c.strokes.length

/-- Minimum x coordinate of the bounding box computed at the top of
Tools.snapToShape.  The code starts the fold from Infinity; for the non
empty lists on which snapToShape proceeds (length at least 3) folding
from the head is the same value. -/
def bboxMinX : List Point → ℚ
  | [] => 0
  | p :: rest => rest.foldl (fun m q => min m q.x) p.x

/-- Maximum x coordinate of the snapToShape bounding box. -/
def bboxMaxX : List Point → ℚ
  | [] => 0
  | p :: rest => rest.foldl (fun m q => max m q.x) p.x

/-- Minimum y coordinate of the snapToShape bounding box. -/
def bboxMinY : List Point → ℚ
  | [] => 0
  | p :: rest => rest.foldl (fun m q => min m q.y) p.y

/-- Maximum y coordinate of the snapToShape bounding box. -/
def bboxMaxY : List Point → ℚ
  | [] => 0
  | p :: rest => rest.foldl (fun m q => max m q.y) p.y

/-- The width local of snapToShape. -/
def bboxW (pts : List Point) : ℚ := bboxMaxX pts - bboxMinX pts

/-- The height local of snapToShape. -/
def bboxH (pts : List Point) : ℚ := bboxMaxY pts - bboxMinY pts

/-- The centre (centerX, centerY) of the snapToShape bounding box. -/
def centerPt (pts : List Point) : Point :=
  ⟨(bboxMinX pts + bboxMaxX pts) / 2, (bboxMinY pts + bboxMaxY pts) / 2⟩

/-- The firstPoint local of snapToShape, points[0]. -/
def firstPt (pts : List Point) : Point := pts.getD 0 ⟨0, 0⟩

/-- The lastPoint local of snapToShape, points[points.length - 1]. -/
def lastPt (pts : List Point) : Point := pts.getD (pts.length - 1) ⟨0, 0⟩

/-- Math.hypot of the difference of two points, over the reals. -/
noncomputable def rdist (p q : Point) : ℝ :=
  Real.sqrt (((p.x - q.x : ℚ) : ℝ) ^ 2 + ((p.y - q.y : ℚ) : ℝ) ^ 2)

/-- The isClosed test of snapToShape: the distance between the endpoints
is below 0.15 times the larger bounding box side. -/
def isClosedProp (pts : List Point) : Prop :=
  rdist (lastPt pts) (firstPt pts) <
    ((max (bboxW pts) (bboxH pts) * (15/100) : ℚ) : ℝ)

/-- The pathLength local of snapToShape: the sum of the distances between
consecutive points. -/
noncomputable def pathLen (pts : List Point) : ℝ :=
  ((pts.zip pts.tail).map (fun pq => rdist pq.2 pq.1)).sum

/-- The line branch condition of snapToShape: not closed, path length
below 1.2 times the direct endpoint distance, and path length above
20. -/
def lineCond (pts : List Point) : Prop :=
  ¬ isClosedProp pts ∧
  pathLen pts < rdist (lastPt pts) (firstPt pts) * (12/10) ∧
  (20 : ℝ) < pathLen pts

/-- The avgRadius local of snapToShape: mean distance of the points from
the bounding box centre. -/
noncomputable def avgRadius (pts : List Point) : ℝ :=
  ((pts.map (fun p => rdist p (centerPt pts))).sum) / (pts.length : ℝ)

/-- The radiusVariance local of snapToShape: mean squared deviation of the
point radii from the average radius. -/
noncomputable def radiusVariance (pts : List Point) : ℝ :=
  ((pts.map (fun p => (rdist p (centerPt pts) - avgRadius pts) ^ 2)).sum) /
    (pts.length : ℝ)

/-- The ellipse branch condition of snapToShape:
circularity = 1 - sqrt(variance) / avgRadius above 0.85.  The code only
evaluates it when the stroke is closed; the closedness conjunct is kept
explicit at the use site. -/
def circCond (pts : List Point) : Prop :=
  (85/100 : ℝ) < 1 - Real.sqrt (radiusVariance pts) / avgRadius pts

/-- The edgeThreshold local of the snapToShape rectangle test, 0.12 times
the larger bounding box side. -/
def edgeThresholdQ (pts : List Point) : ℚ :=
  max (bboxW pts) (bboxH pts) * (12/100)

/-- Whether a point hugs one of the four bounding box edges, the
nearVerticalEdge or nearHorizontalEdge test of snapToShape.  All
quantities are rational, so this branch of the recogniser is computed
exactly. -/
def nearEdge (pts : List Point) (p : Point) : Bool :=
  let et := edgeThresholdQ pts
  decide (min |p.x - bboxMinX pts| |p.x - bboxMaxX pts| < et) ||
  decide (min |p.y - bboxMinY pts| |p.y - bboxMaxY pts| < et)

/-- Whether a point is near a corner of the bounding box, the nearCorner
test of snapToShape. -/
def nearCorner (pts : List Point) (p : Point) : Bool :=
  let et := edgeThresholdQ pts
  decide ((|p.x - bboxMinX pts| < et ∨ |p.x - bboxMaxX pts| < et) ∧
    (|p.y - bboxMinY pts| < et ∨ |p.y - bboxMaxY pts| < et))

/-- The edgeScore counter of the snapToShape rectangle test. -/
def edgeScore (pts : List Point) : ℕ := (pts.filter (nearEdge pts)).length

/-- The cornerScore counter of the snapToShape rectangle test. -/
def cornerScore (pts : List Point) : ℕ :=
  (pts.filter (nearCorner pts)).length

/-- The rectangle branch condition of snapToShape: more than 75 percent
of the points hug an edge and at least 4 points are near a corner.  As
with circCond, the enclosing closedness test is kept explicit at the use
site. -/
def rectCond (pts : List Point) : Prop :=
  (75/100 : ℚ) < (edgeScore pts : ℚ) / (pts.length : ℚ) ∧
  4 ≤ cornerScore pts

/-- The five point closed rectangle path returned by the rectangle branch
of snapToShape. -/
def rectCorners (pts : List Point) : List Point :=
  [⟨bboxMinX pts, bboxMinY pts⟩, ⟨bboxMaxX pts, bboxMinY pts⟩,
   ⟨bboxMaxX pts, bboxMaxY pts⟩, ⟨bboxMinX pts, bboxMaxY pts⟩,
   ⟨bboxMinX pts, bboxMinY pts⟩]

/-- A rational point cast to a real pair, for the replacement point lists
produced by snapToShape. -/
def castPt (p : Point) : ℝ × ℝ := ((p.x : ℝ), (p.y : ℝ))

/-- The 37 point ellipse path returned by the circle branch of
snapToShape: for i from 0 to 36, the point at angle (i / 36) * 2 * pi on
the ellipse inscribed in the bounding box. -/
noncomputable def circlePoints (pts : List Point) : List (ℝ × ℝ) :=
  (List.range 37).map (fun i =>
    let angle : ℝ := ((i : ℝ) / 36) * Real.pi * 2
    ((((centerPt pts).x : ℚ) : ℝ) + Real.cos angle * ((bboxW pts : ℚ) : ℝ) / 2,
     (((centerPt pts).y : ℚ) : ℝ) + Real.sin angle * ((bboxH pts : ℚ) : ℝ) / 2))

open Classical in
/-- Tools.snapToShape (on the points of the stroke; the spread in the code
keeps every other stroke field unchanged, so the replacement point list
is the whole content of the result).  Guard on fewer than 3 points, then
the line test, then, only for closed strokes, the ellipse test followed by
the rectangle test; null otherwise.  The function recognises no other
shape: in particular there is no triangle branch in the source. -/
noncomputable def snapToShapePoints (pts : List Point) : Option (List (ℝ × ℝ)) :=
  if pts.length < 3 then none
  else if lineCond pts then some [castPt (firstPt pts), castPt (lastPt pts)]
  else if isClosedProp pts ∧ circCond pts then some (circlePoints pts)
  else if isClosedProp pts ∧ rectCond pts then
    some ((rectCorners pts).map castPt)
  else none

/-- Squared distance of a point from a centre, used to rank points by
distance from the centroid; ranking by squared distance is the same
ordering as ranking by distance. -/
def radSq (p cen : Point) : ℚ := (p.x - cen.x) ^ 2 + (p.y - cen.y) ^ 2

/-- Modelled from the spec: the farthest-from-centroid fallback of the
triangle test of the shape recogniser (spec section 4.3 step 5), which has
no counterpart in src/js/tools.js.  The indexed points are ranked by
distance from the bounding box centre, descending and stable, and up to
three are picked greedily, skipping any candidate within Euclidean
distance 20 of an already picked corner.  The spec phrase about points
being pairwise well separated by index or by Euclidean distance (more
than 20 px) is read as requiring the explicit Euclidean separation; the
index reading would let the near duplicate closing point of a closed
stroke be picked as a second copy of the first corner. -/
def fallbackCorners (pts : List Point) : Option (Point × Point × Point) :=
  let cen := centerPt pts
  let ranked := pts.enum.insertionSort
    (fun a b => radSq b.2 cen ≤ radSq a.2 cen)
  let picked := ranked.foldl
    (fun (sel : List Point) ip =>
      if sel.length < 3 ∧
          ∀ q ∈ sel, 400 < (ip.2.x - q.x) ^ 2 + (ip.2.y - q.y) ^ 2 then
        sel ++ [ip.2]
      else sel)
    []
  match picked with
  | [a, b, c] => some (a, b, c)
  | _ => none

/-- Modelled from the spec: the turning angle at interior point i of the
corner detection pass of the triangle test (spec section 4.3 step 5),
between the segment entering i from the point two before it and the
segment leaving i towards the point two after it. -/
noncomputable def turningAngle (pts : List Point) (i : ℕ) : ℝ :=
  let pPrev := pts.getD (i - 2) ⟨0, 0⟩
  let p := pts.getD i ⟨0, 0⟩
  let pNext := pts.getD (i + 2) ⟨0, 0⟩
  let ux := ((p.x - pPrev.x : ℚ) : ℝ)
  let uy := ((p.y - pPrev.y : ℚ) : ℝ)
  let vx := ((pNext.x - p.x : ℚ) : ℝ)
  let vy := ((pNext.y - p.y : ℚ) : ℝ)
  Real.arccos ((ux * vx + uy * vy) /
    (Real.sqrt (ux ^ 2 + uy ^ 2) * Real.sqrt (vx ^ 2 + vy ^ 2)))

/-- Modelled from the spec: the main turning-angle corner detection of the
triangle test finds three corners, that is, three interior indices
(excluding the first and last two points), in increasing order, with
consecutive index separations of at least length / 6 and turning angles
above 0.3 radians at each. -/
def mainCornersFound (pts : List Point) : Prop :=
  ∃ i1 i2 i3 : ℕ,
    2 ≤ i1 ∧ i1 < i2 ∧ i2 < i3 ∧ i3 + 2 < pts.length ∧
    (pts.length : ℚ) / 6 ≤ ((i2 - i1 : ℕ) : ℚ) ∧
    (pts.length : ℚ) / 6 ≤ ((i3 - i2 : ℕ) : ℚ) ∧
    (3/10 : ℝ) < turningAngle pts i1 ∧
    (3/10 : ℝ) < turningAngle pts i2 ∧
    (3/10 : ℝ) < turningAngle pts i3

/-- Twice halved: the area of the triangle on three points, half the
absolute cross product. -/
def triArea (a b c : Point) : ℚ :=
  |(b.x - a.x) * (c.y - a.y) - (c.x - a.x) * (b.y - a.y)| / 2

/-- The area of the snapToShape bounding box. -/
def bboxArea (pts : List Point) : ℚ := bboxW pts * bboxH pts

/-- Claim C7 as a proposition: for a stroke of at least 3 points on which
the line, ellipse and rectangle tests of the recogniser all fail, when the
corner detection of the spec (here: its fallback route, the main
turning-angle route having found fewer than 3 corners) yields exactly
three corners whose triangle area exceeds 20 percent of the bounding box
area, snapToShape returns the three corners plus a closing repeat of the
first. -/
def TriangleSnapClaim : Prop :=
  ∀ (pts : List Point) (a b c : Point),
    3 ≤ pts.length →
    ¬ lineCond pts →
    ¬ (isClosedProp pts ∧ circCond pts) →
    ¬ (isClosedProp pts ∧ rectCond pts) →
    ¬ mainCornersFound pts →
    fallbackCorners pts = some (a, b, c) →
    bboxArea pts * (20/100) < triArea a b c →
    snapToShapePoints pts = some [castPt a, castPt b, castPt c, castPt a]

/-- An edit instruction, one committed structural mutation of the
document: add a drawn stroke (endStroke on a given current stroke), add a
pasted image (addImageStroke), remove one stroke (removeStroke), remove a
selection (deleteStrokes), or clear via the first revision of clearAll,
the variant that records a clear edit. -/
inductive Edit where
  | add (s : Stroke)
  | addImage (src : String) (w h : ℚ)
  | remove (i : ℕ)
  | removeMany (idxs : List ℕ)
  | clearV1
deriving DecidableEq

/-- Application of one edit instruction to the canvas state through the
modelled operations. -/
def applyEdit (c : CanvasState) : Edit → CanvasState
  | .add s => (endStroke { c with currentStroke := some s }).1
  | .addImage src w h => addImageStroke c src w h
  | .remove i => (removeStroke c i).1
  | .removeMany idxs => deleteStrokes c idxs
  | .clearV1 => clearAllV1 c

/-- Whether an edit instruction actually commits in the given state: a
drawn stroke must have a point, a removal index must be in range, a
selection removal must be a non empty duplicate free set of in range
indices (selections produced by the selection engine are exactly that),
and a clear needs a non empty document (clearAll is a no-op otherwise). -/
def validEdit (c : CanvasState) : Edit → Bool
  | .add s => decide (0 < (strokePoints s).length)
  | .addImage _ _ _ => true
  | .remove i => decide (i < c.strokes.length)
  | .removeMany idxs =>
      !idxs.isEmpty && decide idxs.Nodup &&
        idxs.all (fun i => decide (i < c.strokes.length))
  | .clearV1 => !c.strokes.isEmpty

/-- Whether every edit of a sequence commits, each in the state produced
by its predecessors. -/
def validSeq : CanvasState → List Edit → Bool
  | _, [] => true
  | c, e :: es => validEdit c e && validSeq (applyEdit c e) es

/-- Application of a sequence of edits, left to right. -/
def applyEdits (c : CanvasState) (es : List Edit) : CanvasState :=
  es.foldl applyEdit c

/-- n calls of undo in a row, ignoring the returned flags. -/
def undoN (c : CanvasState) : ℕ → CanvasState
  | 0 => c
  | n + 1 => (undo (undoN c n)).1

/-- n calls of redo in a row, ignoring the returned flags. -/
def redoN : CanvasState → ℕ → CanvasState
  | c, 0 => c
  | c, n + 1 => redoN (redo c).1 n

/-- Folding eraseIdx over a list of indices, the removal loop of
deleteStrokes and of the removeMultiple branch of redo. -/
def eraseFold (l : List Stroke) (ds : List ℕ) : List Stroke :=
  ds.foldl (fun acc i => acc.eraseIdx i) l

/-- The (stroke, index) pairs recorded by deleteStrokes when the sorted
descending index list ds is removed from l: each index paired with the
element of l there.  For a strictly descending in range index list this
is what the removal loop records, because erasing at a larger index does
not shift smaller positions. -/
def pairsOf (l : List Stroke) (ds : List ℕ) : List (Stroke × ℕ) :=
  ds.map (fun d => (l.getD d .missing, d))

/-- The stroke list produced by applying an edit, as a function of the
starting state. -/
def fwdOf (c : CanvasState) : Edit → List Stroke
  | .add s => c.strokes ++ [s]
  | .addImage src w h => c.strokes ++ [imageStrokeOf c src w h]
  | .remove i => c.strokes.eraseIdx i
  | .removeMany idxs => eraseFold c.strokes (sortDesc idxs)
  | .clearV1 => []

/-- The record that applying an edit pushes onto the undo stack. -/
def recOf (c : CanvasState) : Edit → EditRecord
  | .add s => .add s
  | .addImage src w h => .add (imageStrokeOf c src w h)
  | .remove i => .remove (c.strokes.getD i .missing) i
  | .removeMany idxs => .removeMultiple (pairsOf c.strokes (sortDesc idxs))
  | .clearV1 => .clear c.strokes

/-- The records of an edit sequence in application order, each as it will
sit on the redo stack after being undone (sorted ascending for
removeMultiple, unchanged otherwise). -/
def recsOf : CanvasState → List Edit → List EditRecord
  | _, [] => []
  | c, e :: es => undoPushRec (recOf c e) :: recsOf (applyEdit c e) es

/-- A one point pencil stroke used by the concrete test documents. -/
def mkDot (n : ℚ) : Stroke :=
  .path .pencil [⟨n, n⟩] ("#000000") 3 1

/-- A fresh canvas state: empty document, identity viewport, default
background, 800 by 600 window. -/
def baseState : CanvasState :=
  ⟨[], none, [], [], 0, 0, 1, 800, 600, ("grid-light")⟩

/-- Concrete document for the claim C1 counterexample: one stroke, empty
history. -/
def c1ex : CanvasState := { baseState with strokes := [mkDot 1] }

/-- Concrete document for the claim C3 counterexample: one stroke and a
non empty redo stack. -/
def c3ex : CanvasState :=
  { baseState with strokes := [mkDot 2], redoStack := [.add (mkDot 9)] }

/-- Concrete six stroke document for the claim C2 witness. -/
def c2doc : CanvasState :=
  { baseState with strokes :=
      [mkDot 0, mkDot 1, mkDot 2, mkDot 3, mkDot 4, mkDot 5] }

/-- Concrete saved state with an out of bounds scale for the claim C6
counterexample. -/
def st100 : SavedState := ⟨none, none, none, none, some 100⟩

/-- Concrete saved state with an in bounds scale for the claim C6
witness. -/
def stOk : SavedState := ⟨none, none, none, none, some 2⟩

/-- Concrete viewport for the claim C4 and C5 witnesses. -/
def cView : CanvasState :=
  { baseState with offsetX := 5, offsetY := 7, scale := 2 }

/-- Concrete one stroke document for the claim C8 witness: a two point
pencil stroke with widely spaced points. -/
def cHit : CanvasState :=
  { baseState with strokes :=
      [.path .pencil [⟨0, 0⟩, ⟨100, 0⟩] ("#000000") 4 1] }

/-- Concrete document for the claim C9 witness: a path stroke and an
image stroke. -/
def c9doc : CanvasState :=
  { baseState with strokes :=
      [.path .pen [⟨1, 2⟩, ⟨3, 4⟩] ("#ff0000") 2 1,
       .image ("img") 10 20 30 40 1] }

/-- The concrete closed triangle-like stroke refuting claim C7: it walks
the triangle (0,0), (60,0), (30,80) with one sample point on each slanted
side and closes back near the origin.  Each point has rational distance
both from its neighbours and from the bounding box centre (30,40), so the
recogniser branch conditions can be settled exactly. -/
def trigPts : List Point :=
  [⟨0, 0⟩, ⟨60, 0⟩, ⟨45, 40⟩, ⟨30, 80⟩, ⟨15, 40⟩, ⟨3, 4⟩]

/-- The concrete two edit sequence used by the claim C1 witness: delete
the only stroke, then draw a new one. -/
def c1seq : List Edit := [.removeMany [0], .add (mkDot 7)]

/-- Concrete one stroke document for the claim C3 witness. -/
def c3w : CanvasState := { baseState with strokes := [mkDot 4] }

/-! Helper lemmas about list surgery and the modelled sorts. -/

theorem spliceIns_eraseIdx_getD :
    ∀ (l : List Stroke) (i : ℕ), i < l.length →
      spliceIns (l.eraseIdx i) i (l.getD i .missing) = l := by
  intro l
  induction l with
  | nil => intro i h; simp at h
  | cons a t ih =>
      intro i h
      cases i with
      | zero => simp [spliceIns, List.eraseIdx]
      | succ i =>
          have ht : i < t.length := by simpa using h
          have := ih i ht
          simp only [List.eraseIdx, List.getD_cons_succ, spliceIns,
            List.take_succ_cons, List.drop_succ_cons, List.cons_append]
          simpa [spliceIns] using this

theorem getD_eraseIdx_of_lt :
    ∀ (l : List Stroke) (i j : ℕ), j < i →
      (l.eraseIdx i).getD j .missing = l.getD j .missing := by
  intro l
  induction l with
  | nil => intro i j _; simp [List.eraseIdx]
  | cons a t ih =>
      intro i j h
      cases i with
      | zero => omega
      | succ i =>
          cases j with
          | zero => simp [List.eraseIdx]
          | succ j =>
              have := ih i j (by omega)
              simpa [List.eraseIdx] using this

theorem length_eraseIdx_of_lt :
    ∀ (l : List Stroke) (i : ℕ), i < l.length →
      (l.eraseIdx i).length = l.length - 1 := by
  intro l
  induction l with
  | nil => intro i h; simp at h
  | cons a t ih =>
      intro i h
      cases i with
      | zero => simp [List.eraseIdx]
      | succ i =>
          have ht : i < t.length := by simpa using h
          have := ih i ht
          simp only [List.eraseIdx, List.length_cons, this]
          omega

theorem orderedInsert_of_forall_not {α : Type} (r : α → α → Prop)
    [DecidableRel r] :
    ∀ (l : List α) (x : α), (∀ y ∈ l, ¬ r x y) →
      l.orderedInsert r x = l ++ [x] := by
  intro l
  induction l with
  | nil => intro x _; rfl
  | cons b t ih =>
      intro x h
      have hb : ¬ r x b := h b (by simp)
      simp only [List.orderedInsert, if_neg hb, List.cons_append,
        List.cons.injEq, true_and]
      exact ih x (fun y hy => h y (by simp [hy]))

theorem insertionSort_eq_reverse {α : Type} (r : α → α → Prop)
    [DecidableRel r] :
    ∀ l : List α, l.Pairwise (fun a b => ¬ r a b) →
      l.insertionSort r = l.reverse := by
  intro l
  induction l with
  | nil => intro _; rfl
  | cons a t ih =>
      intro h
      rw [List.pairwise_cons] at h
      simp only [List.insertionSort, ih h.2, List.reverse_cons]
      exact orderedInsert_of_forall_not r t.reverse a
        (fun y hy => h.1 y (by simpa using hy))

instance : IsTotal ℕ (fun a b => b ≤ a) := ⟨fun a b => le_total b a⟩

instance : IsTrans ℕ (fun a b => b ≤ a) := ⟨fun _ _ _ h1 h2 => le_trans h2 h1⟩

theorem sortDesc_perm (l : List ℕ) : List.Perm (sortDesc l) l :=
  List.perm_insertionSort _ l

theorem sortDesc_strict (l : List ℕ) (h : l.Nodup) :
    (sortDesc l).Pairwise (fun a b => b < a) := by
  have hs : (sortDesc l).Pairwise (fun a b => b ≤ a) :=
    List.sorted_insertionSort _ l
  have hn : (sortDesc l).Nodup := ((sortDesc_perm l).nodup_iff).mpr h
  exact (hs.and hn).imp (fun h2 => lt_of_le_of_ne h2.1 (Ne.symm h2.2))

theorem sortPairsAsc_of_strictDesc (items : List (Stroke × ℕ))
    (h : items.Pairwise (fun p q => q.2 < p.2)) :
    sortPairsAsc items = items.reverse :=
  insertionSort_eq_reverse _ items (h.imp (fun hlt => not_le.mpr hlt))

theorem sortDesc_of_strictAsc (l : List ℕ) (h : l.Pairwise (· < ·)) :
    sortDesc l = l.reverse :=
  insertionSort_eq_reverse _ l (h.imp (fun hlt => not_le.mpr hlt))

theorem pairsOf_eraseIdx (t : List ℕ) (l : List Stroke) (d : ℕ)
    (h : ∀ x ∈ t, x < d) : pairsOf (l.eraseIdx d) t = pairsOf l t := by
  unfold pairsOf
  exact List.map_congr_left (fun x hx => by
    rw [getD_eraseIdx_of_lt l d x (h x hx)])

theorem pairsOf_indices_strict (l : List Stroke) (ds : List ℕ)
    (h : ds.Pairwise (fun a b => b < a)) :
    (pairsOf l ds).Pairwise (fun p q => q.2 < p.2) := by
  unfold pairsOf
  exact (List.pairwise_map).mpr (h.imp (fun hlt => hlt))

theorem deleteFold_spec :
    ∀ (ds : List ℕ) (l : List Stroke) (acc : List (Stroke × ℕ)),
      ds.Pairwise (fun a b => b < a) → (∀ d ∈ ds, d < l.length) →
      ds.foldl
        (fun (acc : List (Stroke × ℕ) × List Stroke) index =>
          (acc.1 ++ [(acc.2.getD index .missing, index)],
            acc.2.eraseIdx index))
        (acc, l) = (acc ++ pairsOf l ds, eraseFold l ds) := by
  intro ds
  induction ds with
  | nil => intro l acc _ _; simp [pairsOf, eraseFold]
  | cons d t ih =>
      intro l acc hp hv
      rw [List.pairwise_cons] at hp
      have hd : d < l.length := hv d (by simp)
      have hvt : ∀ x ∈ t, x < (l.eraseIdx d).length := by
        intro x hx
        rw [length_eraseIdx_of_lt l d hd]
        have h1 : x < d := hp.1 x hx
        omega
      have step := ih (l.eraseIdx d) (acc ++ [(l.getD d .missing, d)]) hp.2 hvt
      simp only [List.foldl_cons] at *
      rw [step, pairsOf_eraseIdx t l d hp.1]
      simp [pairsOf, eraseFold]

theorem insFold_pairsOf_reverse :
    ∀ (ds : List ℕ) (l : List Stroke),
      ds.Pairwise (fun a b => b < a) → (∀ d ∈ ds, d < l.length) →
      ((pairsOf l ds).reverse).foldl
        (fun acc it => spliceIns acc it.2 it.1) (eraseFold l ds) = l := by
  intro ds
  induction ds with
  | nil => intro l _ _; simp [pairsOf, eraseFold]
  | cons d t ih =>
      intro l hp hv
      rw [List.pairwise_cons] at hp
      have hd : d < l.length := hv d (by simp)
      have hvt : ∀ x ∈ t, x < (l.eraseIdx d).length := by
        intro x hx
        rw [length_eraseIdx_of_lt l d hd]
        have h1 : x < d := hp.1 x hx
        omega
      have hrw : pairsOf l (d :: t) =
          (l.getD d .missing, d) :: pairsOf (l.eraseIdx d) t := by
        rw [pairsOf_eraseIdx t l d hp.1]; rfl
      have hef : eraseFold l (d :: t) = eraseFold (l.eraseIdx d) t := rfl
      rw [hrw, hef, List.reverse_cons, List.foldl_append,
        ih (l.eraseIdx d) hp.2 hvt]
      exact spliceIns_eraseIdx_getD l d hd

theorem validEdit_removeMany_decode (c : CanvasState) (idxs : List ℕ)
    (h : validEdit c (.removeMany idxs) = true) :
    idxs.isEmpty = false ∧ idxs.Nodup ∧
      ∀ i ∈ idxs, i < c.strokes.length := by
  simp only [validEdit, Bool.and_eq_true, Bool.not_eq_true',
    decide_eq_true_eq, List.all_eq_true] at h
  exact ⟨h.1.1, h.1.2, h.2⟩

theorem undo_cons (st : CanvasState) (r : EditRecord)
    (rest : List EditRecord) (h : st.undoStack = r :: rest) :
    undo st = ({ st with strokes := undoStrokes r st.strokes,
                         undoStack := rest,
                         redoStack := undoPushRec r :: st.redoStack }, true) := by
  simp only [undo, h]

theorem redo_cons (st : CanvasState) (r : EditRecord)
    (rest : List EditRecord) (h : st.redoStack = r :: rest) :
    redo st = ({ st with strokes := redoStrokes r st.strokes,
                         redoStack := rest,
                         undoStack := r :: st.undoStack }, true) := by
  simp only [redo, h]

theorem applyEdit_eq (c : CanvasState) (e : Edit)
    (h : validEdit c e = true) :
    (applyEdit c e).strokes = fwdOf c e ∧
    (applyEdit c e).undoStack = recOf c e :: c.undoStack ∧
    (applyEdit c e).redoStack = [] := by
  cases e with
  | add s =>
      have hp : 0 < (strokePoints s).length := by
        simpa [validEdit] using h
      simp [applyEdit, endStroke, fwdOf, recOf, hp]
  | addImage src w ht => simp [applyEdit, addImageStroke, fwdOf, recOf]
  | remove i =>
      have hi : i < c.strokes.length := by simpa [validEdit] using h
      simp [applyEdit, removeStroke, hi, fwdOf, recOf]
  | removeMany idxs =>
      obtain ⟨hne, hnd, hlt⟩ := validEdit_removeMany_decode c idxs h
      have hp := sortDesc_strict idxs hnd
      have hv : ∀ d ∈ sortDesc idxs, d < c.strokes.length :=
        fun d hd => hlt d ((sortDesc_perm idxs).mem_iff.mp hd)
      have hfold := deleteFold_spec (sortDesc idxs) c.strokes [] hp hv
      have hds : applyEdit c (.removeMany idxs) =
          { c with strokes := eraseFold c.strokes (sortDesc idxs),
                   undoStack :=
                     .removeMultiple (pairsOf c.strokes (sortDesc idxs)) ::
                       c.undoStack,
                   redoStack := [] } := by
        show deleteStrokes c idxs = _
        unfold deleteStrokes
        rw [hne]
        simp only [Bool.false_eq_true, if_false]
        rw [hfold]
        simp
      rw [hds]
      simp [fwdOf, recOf]
  | clearV1 =>
      have hne : c.strokes.isEmpty = false := by simpa [validEdit] using h
      simp [applyEdit, clearAllV1, hne, fwdOf, recOf]

theorem undoStrokes_recOf (c : CanvasState) (e : Edit)
    (h : validEdit c e = true) :
    undoStrokes (recOf c e) (fwdOf c e) = c.strokes := by
  cases e with
  | add s => simp [undoStrokes, recOf, fwdOf]
  | addImage src w ht => simp [undoStrokes, recOf, fwdOf]
  | remove i =>
      have hi : i < c.strokes.length := by simpa [validEdit] using h
      simp only [undoStrokes, recOf, fwdOf]
      exact spliceIns_eraseIdx_getD c.strokes i hi
  | removeMany idxs =>
      obtain ⟨hne, hnd, hlt⟩ := validEdit_removeMany_decode c idxs h
      have hp := sortDesc_strict idxs hnd
      have hv : ∀ d ∈ sortDesc idxs, d < c.strokes.length :=
        fun d hd => hlt d ((sortDesc_perm idxs).mem_iff.mp hd)
      simp only [undoStrokes, recOf, fwdOf]
      rw [sortPairsAsc_of_strictDesc _
        (pairsOf_indices_strict c.strokes _ hp)]
      exact insFold_pairsOf_reverse (sortDesc idxs) c.strokes hp hv
  | clearV1 => simp [undoStrokes, recOf, fwdOf]

theorem redoStrokes_recOf (c : CanvasState) (e : Edit)
    (h : validEdit c e = true) :
    redoStrokes (undoPushRec (recOf c e)) c.strokes = fwdOf c e := by
  cases e with
  | add s => simp [redoStrokes, undoPushRec, recOf, fwdOf]
  | addImage src w ht => simp [redoStrokes, undoPushRec, recOf, fwdOf]
  | remove i => simp [redoStrokes, undoPushRec, recOf, fwdOf]
  | removeMany idxs =>
      obtain ⟨hne, hnd, hlt⟩ := validEdit_removeMany_decode c idxs h
      have hp := sortDesc_strict idxs hnd
      simp only [undoPushRec, recOf, redoStrokes, fwdOf]
      rw [sortPairsAsc_of_strictDesc _
        (pairsOf_indices_strict c.strokes _ hp)]
      have hmap : (((pairsOf c.strokes (sortDesc idxs)).reverse).map
          (fun it => it.2)) = (sortDesc idxs).reverse := by
        rw [List.map_reverse]
        unfold pairsOf
        rw [List.map_map]
        rw [show ((fun (it : Stroke × ℕ) => it.2) ∘
          fun d => (c.strokes.getD d Stroke.missing, d)) = id from rfl]
        rw [List.map_id]
      rw [hmap, sortDesc_of_strictAsc _ (by
        rw [List.pairwise_reverse]
        exact hp.imp (fun hlt2 => hlt2)), List.reverse_reverse]
      rfl
  | clearV1 => simp [redoStrokes, undoPushRec, recOf, fwdOf]

theorem validSeq_cons (c : CanvasState) (e : Edit) (es : List Edit)
    (h : validSeq c (e :: es) = true) :
    validEdit c e = true ∧ validSeq (applyEdit c e) es = true := by
  simpa [validSeq, Bool.and_eq_true] using h

theorem undoN_applyEdits :
    ∀ (es : List Edit) (c : CanvasState), validSeq c es = true →
      (undoN (applyEdits c es) es.length).strokes = c.strokes ∧
      (undoN (applyEdits c es) es.length).undoStack = c.undoStack ∧
      (undoN (applyEdits c es) es.length).redoStack =
        recsOf c es ++ (applyEdits c es).redoStack := by
  intro es
  induction es with
  | nil => intro c _; simp [applyEdits, undoN, recsOf]
  | cons e t ih =>
      intro c h
      obtain ⟨h1, h2⟩ := validSeq_cons c e t h
      obtain ⟨ha1, ha2, ha3⟩ := applyEdit_eq c e h1
      have hx : applyEdits c (e :: t) = applyEdits (applyEdit c e) t := rfl
      obtain ⟨ih1, ih2, ih3⟩ := ih (applyEdit c e) h2
      have hlen : (e :: t).length = t.length + 1 := rfl
      rw [hlen, hx]
      set u1 := undoN (applyEdits (applyEdit c e) t) t.length with hu1
      have hstep : undo u1 =
          ({ u1 with strokes := undoStrokes (recOf c e) u1.strokes,
                     undoStack := c.undoStack,
                     redoStack := undoPushRec (recOf c e) :: u1.redoStack },
            true) := by
        have : u1.undoStack = recOf c e :: c.undoStack := by
          rw [ih2, ha2]
        exact undo_cons u1 (recOf c e) c.undoStack this
      have hs : (undoN (applyEdits (applyEdit c e) t) (t.length + 1)) =
          (undo u1).1 := rfl
      rw [hs, hstep]
      refine ⟨?_, rfl, ?_⟩
      · show undoStrokes (recOf c e) u1.strokes = c.strokes
        rw [ih1, ha1]
        exact undoStrokes_recOf c e h1
      · show undoPushRec (recOf c e) :: u1.redoStack =
          recsOf c (e :: t) ++ (applyEdits (applyEdit c e) t).redoStack
        rw [ih3]
        rfl

theorem redoN_replays :
    ∀ (es : List Edit) (c : CanvasState) (st : CanvasState)
      (tail0 : List EditRecord), validSeq c es = true →
      st.strokes = c.strokes → st.redoStack = recsOf c es ++ tail0 →
      (redoN st es.length).strokes = (applyEdits c es).strokes ∧
      (redoN st es.length).redoStack = tail0 := by
  intro es
  induction es with
  | nil =>
      intro c st tail0 _ hs hr
      simp [applyEdits, redoN, recsOf] at *
      exact ⟨hs, hr⟩
  | cons e t ih =>
      intro c st tail0 h hs hr
      obtain ⟨h1, h2⟩ := validSeq_cons c e t h
      obtain ⟨ha1, ha2, ha3⟩ := applyEdit_eq c e h1
      have hrc : st.redoStack =
          undoPushRec (recOf c e) :: (recsOf (applyEdit c e) t ++ tail0) := by
        rw [hr]; rfl
      have hstep := redo_cons st (undoPushRec (recOf c e))
        (recsOf (applyEdit c e) t ++ tail0) hrc
      have hred : redoN st (e :: t).length = redoN (redo st).1 t.length := rfl
      rw [hred, hstep]
      have hs2 : undoPushRec (recOf c e) :: st.undoStack = undoPushRec (recOf c e) :: st.undoStack := rfl
      have := ih (applyEdit c e)
        ({ st with strokes := redoStrokes (undoPushRec (recOf c e)) st.strokes,
                   redoStack := recsOf (applyEdit c e) t ++ tail0,
                   undoStack := undoPushRec (recOf c e) :: st.undoStack })
        tail0 h2 (by
          show redoStrokes (undoPushRec (recOf c e)) st.strokes =
            (applyEdit c e).strokes
          rw [hs, ha1]
          exact redoStrokes_recOf c e h1) rfl
      exact this

/-- Claim C1, counterexample.  The claim includes Clear via clearAll among
the structural edits, but the live (second revision) clearAll wipes the
undo stack and records nothing, so the one edit sequence E1 = Clear on a
one stroke document cannot be undone: undo reports false and the stroke
list stays empty instead of returning to its pre-E1 state. -/
theorem clear_breaks_undo_inverse :
    (undo (clearAll c1ex)).2 = false ∧
    (undo (clearAll c1ex)).1.strokes ≠ c1ex.strokes := by
  constructor
  · decide
  · decide

/-- Claim C1 (amended): for every sequence of structural edits that
actually commit records, drawn from Add (endStroke or addImageStroke),
Remove (removeStroke at an in range index), RemoveMultiple (deleteStrokes
on a non empty duplicate free in range selection) and Clear via the first
revision of clearAll (the variant that pushes a clear record), calling
undo n times restores the stroke list and the undo stack to their exact
state before the first edit, and calling redo n times after that restores
the stroke list to its exact state after the last edit.  Clear via the
second revision of clearAll instead erases the whole history, as the
counterexample shows, so sequences containing it are excluded. -/
theorem undo_redo_inverse_law (es : List Edit) (c : CanvasState)
    (h : validSeq c es = true) :
    (undoN (applyEdits c es) es.length).strokes = c.strokes ∧
    (undoN (applyEdits c es) es.length).undoStack = c.undoStack ∧
    (redoN (undoN (applyEdits c es) es.length) es.length).strokes =
      (applyEdits c es).strokes := by
  obtain ⟨h1, h2, h3⟩ := undoN_applyEdits es c h
  refine ⟨h1, h2, ?_⟩
  exact (redoN_replays es c (undoN (applyEdits c es) es.length)
    ((applyEdits c es).redoStack) h h1 h3).1

/-- Claim C1, witness: the inverse law applied to the concrete two edit
sequence c1seq (delete the only stroke, then draw a new one) on the one
stroke document c1ex. -/
theorem undo_redo_inverse_law_witness :
    (undoN (applyEdits c1ex c1seq) 2).strokes = c1ex.strokes ∧
    (redoN (undoN (applyEdits c1ex c1seq) 2) 2).strokes =
      (applyEdits c1ex c1seq).strokes := by
  have h := undo_redo_inverse_law c1seq c1ex (by decide)
  exact ⟨h.1, h.2.2⟩

/-- Claim C2: deleteStrokes removes the strokes at the given indices in
descending index order (the sorted index list is strictly descending and
a permutation of the input), records the (stroke, original index) pairs in
one removeMultiple record pushed onto the undo stack, a subsequent undo
reinserts them at their recorded indices in ascending order and restores
the original stroke sequence exactly, and a subsequent redo removes them
again in descending order, reproducing the post delete stroke list. -/
theorem deleteStrokes_undo_redo_exact (c : CanvasState) (idxs : List ℕ)
    (h1 : idxs ≠ []) (h2 : idxs.Nodup)
    (h3 : ∀ i ∈ idxs, i < c.strokes.length) :
    (deleteStrokes c idxs).strokes = eraseFold c.strokes (sortDesc idxs) ∧
    (sortDesc idxs).Pairwise (fun a b => b < a) ∧
    List.Perm (sortDesc idxs) idxs ∧
    (deleteStrokes c idxs).undoStack =
      .removeMultiple (pairsOf c.strokes (sortDesc idxs)) :: c.undoStack ∧
    (deleteStrokes c idxs).redoStack = [] ∧
    (undo (deleteStrokes c idxs)).1.strokes = c.strokes ∧
    (redo (undo (deleteStrokes c idxs)).1).1.strokes =
      (deleteStrokes c idxs).strokes := by
  have hv : validEdit c (.removeMany idxs) = true := by
    unfold validEdit
    rw [Bool.and_eq_true, Bool.and_eq_true]
    refine ⟨⟨?_, decide_eq_true h2⟩, ?_⟩
    · cases idxs with
      | nil => exact absurd rfl h1
      | cons a t => rfl
    · rw [List.all_eq_true]
      intro i hi
      exact decide_eq_true (h3 i hi)
  obtain ⟨ha1, ha2, ha3⟩ := applyEdit_eq c (.removeMany idxs) hv
  have hds : deleteStrokes c idxs = applyEdit c (.removeMany idxs) := rfl
  have hu : undo (deleteStrokes c idxs) =
      ({ deleteStrokes c idxs with
           strokes := undoStrokes (recOf c (.removeMany idxs))
             (deleteStrokes c idxs).strokes,
           undoStack := c.undoStack,
           redoStack := undoPushRec (recOf c (.removeMany idxs)) ::
             (deleteStrokes c idxs).redoStack }, true) := by
    refine undo_cons _ _ _ ?_
    rw [hds, ha2]
  have hustrokes : (undo (deleteStrokes c idxs)).1.strokes = c.strokes := by
    rw [hu]
    show undoStrokes (recOf c (.removeMany idxs))
      (deleteStrokes c idxs).strokes = c.strokes
    rw [hds, ha1]
    exact undoStrokes_recOf c (.removeMany idxs) hv
  refine ⟨by rw [hds, ha1]; rfl, sortDesc_strict idxs h2, sortDesc_perm idxs,
    by rw [hds, ha2]; rfl, by rw [hds, ha3], hustrokes, ?_⟩
  have hr : redo (undo (deleteStrokes c idxs)).1 =
      ({ (undo (deleteStrokes c idxs)).1 with
           strokes := redoStrokes (undoPushRec (recOf c (.removeMany idxs)))
             (undo (deleteStrokes c idxs)).1.strokes,
           redoStack := (deleteStrokes c idxs).redoStack,
           undoStack := undoPushRec (recOf c (.removeMany idxs)) ::
             (undo (deleteStrokes c idxs)).1.undoStack }, true) := by
    refine redo_cons _ _ _ ?_
    rw [hu]
  rw [hr]
  show redoStrokes (undoPushRec (recOf c (.removeMany idxs)))
    (undo (deleteStrokes c idxs)).1.strokes = (deleteStrokes c idxs).strokes
  rw [hustrokes, hds, ha1]
  exact redoStrokes_recOf c (.removeMany idxs) hv

/-- Claim C2, witness: deleting indices [1, 3, 5] from the six stroke
document c2doc, undoing restores the original sequence exactly, and
redoing removes them again. -/
theorem deleteStrokes_undo_redo_exact_witness :
    (undo (deleteStrokes c2doc [1, 3, 5])).1.strokes = c2doc.strokes ∧
    (redo (undo (deleteStrokes c2doc [1, 3, 5])).1).1.strokes =
      (deleteStrokes c2doc [1, 3, 5]).strokes := by
  have h := deleteStrokes_undo_redo_exact c2doc [1, 3, 5] (by decide)
    (by decide) (by decide)
  exact ⟨h.2.2.2.2.2.1, h.2.2.2.2.2.2⟩

/-- Claim C3, counterexample.  On the non empty document c3ex the live
(second revision) clearAll pushes no record at all: the undo stack ends up
empty instead of one entry longer, refuting the claim that every committed
structural mutation, Clear included, pushes exactly one record. -/
theorem clearAll_pushes_no_record :
    (clearAll c3ex).undoStack.length ≠ c3ex.undoStack.length + 1 ∧
    (clearAll c3ex).undoStack = [] ∧ (clearAll c3ex).redoStack = [] := by
  refine ⟨?_, ?_, ?_⟩ <;> decide

/-- Claim C3 (amended): Add via endStroke on a committed non empty
stroke, Remove via removeStroke at an in range index, RemoveMultiple via
deleteStrokes on a non empty index list, and Clear via the first revision
of clearAll on a non empty document each push exactly one record onto the
undo stack and empty the redo stack, whatever the prior content of the
stacks; the second revision of clearAll instead empties both stacks and
pushes nothing. -/
theorem mutation_history_discipline :
    (∀ c s, c.currentStroke = some s → 0 < (strokePoints s).length →
      (endStroke c).1.undoStack = .add s :: c.undoStack ∧
      (endStroke c).1.redoStack = []) ∧
    (∀ c (i : ℕ), i < c.strokes.length →
      (removeStroke c i).1.undoStack =
        .remove (c.strokes.getD i .missing) i :: c.undoStack ∧
      (removeStroke c i).1.redoStack = []) ∧
    (∀ c (idxs : List ℕ), idxs ≠ [] →
      ∃ items, (deleteStrokes c idxs).undoStack =
        .removeMultiple items :: c.undoStack ∧
      (deleteStrokes c idxs).redoStack = []) ∧
    (∀ c : CanvasState, c.strokes ≠ [] →
      (clearAllV1 c).undoStack = .clear c.strokes :: c.undoStack ∧
      (clearAllV1 c).redoStack = []) ∧
    (∀ c : CanvasState, c.strokes ≠ [] →
      (clearAll c).undoStack = [] ∧ (clearAll c).redoStack = []) := by
  refine ⟨?_, ?_, ?_, ?_, ?_⟩
  · intro c s h1 h2
    have : endStroke c =
        ({ c with strokes := c.strokes ++ [s],
                  undoStack := .add s :: c.undoStack,
                  redoStack := [],
                  currentStroke := none }, true) := by
      unfold endStroke
      rw [h1]
      simp [h2]
    rw [this]
    simp
  · intro c i h
    simp [removeStroke, h]
  · intro c idxs h
    have hne : idxs.isEmpty = false := by
      cases idxs with
      | nil => exact absurd rfl h
      | cons a t => rfl
    unfold deleteStrokes
    rw [hne]
    simp only [Bool.false_eq_true, if_false]
    exact ⟨_, rfl, by simp⟩
  · intro c h
    have hne : c.strokes.isEmpty = false := by
      cases hs : c.strokes with
      | nil => exact absurd hs h
      | cons a t => rfl
    unfold clearAllV1
    rw [hne]
    simp
  · intro c h
    have hne : c.strokes.isEmpty = false := by
      cases hs : c.strokes with
      | nil => exact absurd hs h
      | cons a t => rfl
    unfold clearAll
    rw [hne]
    simp

/-- Claim C3, witness: one committed stroke push and one first revision
clear on concrete documents, each leaving exactly one new undo record and
an empty redo stack. -/
theorem mutation_history_discipline_witness :
    ((endStroke { baseState with currentStroke := some (mkDot 3) }).1.undoStack
        = .add (mkDot 3) :: baseState.undoStack ∧
      (endStroke { baseState with
        currentStroke := some (mkDot 3) }).1.redoStack = []) ∧
    ((clearAllV1 c3w).undoStack = .clear c3w.strokes :: c3w.undoStack ∧
      (clearAllV1 c3w).redoStack = []) := by
  constructor
  · exact mutation_history_discipline.1
      { baseState with currentStroke := some (mkDot 3) } (mkDot 3) rfl
      (by decide)
  · exact mutation_history_discipline.2.2.2.1 c3w (by decide)

/-- Claim C10: loadState on a non null state replaces the stroke list with
the saved strokes (empty when absent), restores background, offsets and
scale with their or-defaults, and resets both history stacks to empty, so
that undo and redo right after a load are refused no-ops. -/
theorem loadState_replaces_and_resets_history (c : CanvasState)
    (s : SavedState) :
    (loadState c (some s)).strokes = s.strokes.getD [] ∧
    (loadState c (some s)).currentBackground =
      jsOrStr s.background ("grid-light") ∧
    (loadState c (some s)).offsetX = jsOrNum s.offsetX 0 ∧
    (loadState c (some s)).offsetY = jsOrNum s.offsetY 0 ∧
    (loadState c (some s)).scale = jsOrNum s.scale 1 ∧
    (loadState c (some s)).undoStack = [] ∧
    (loadState c (some s)).redoStack = [] ∧
    undo (loadState c (some s)) = (loadState c (some s), false) ∧
    redo (loadState c (some s)) = (loadState c (some s), false) := by
  refine ⟨rfl, rfl, rfl, rfl, rfl, rfl, rfl, rfl, rfl⟩

/-- Claim C5: toScreen multiplies by the scale and adds the offset in each
coordinate, and toCanvas is its exact inverse, so the round trip
toCanvas after toScreen is the identity whenever the scale is non
zero. -/
theorem toCanvas_toScreen_roundtrip (c : CanvasState) (x y : ℚ)
    (h : c.scale ≠ 0) :
    toCanvas c (toScreen c x y).x (toScreen c x y).y = ⟨x, y⟩ ∧
    toScreen c x y = ⟨x * c.scale + c.offsetX, y * c.scale + c.offsetY⟩ := by
  refine ⟨?_, rfl⟩
  simp only [toScreen, toCanvas]
  rw [add_sub_cancel_right, add_sub_cancel_right,
    mul_div_cancel_right₀ _ h, mul_div_cancel_right₀ _ h]

/-- Claim C5, witness: the round trip at the concrete viewport cView with
scale 2 and offset (5, 7). -/
theorem toCanvas_toScreen_roundtrip_witness :
    toCanvas cView (toScreen cView 3 4).x (toScreen cView 3 4).y = ⟨3, 4⟩ :=
  (toCanvas_toScreen_roundtrip cView 3 4 (by decide)).1

theorem clampScale_mem (t : ℚ) :
    minScale ≤ clampScale t ∧ clampScale t ≤ maxScale := by
  unfold clampScale
  constructor
  · exact le_max_left _ _
  · exact max_le (by norm_num [minScale, maxScale]) (min_le_left _ _)

theorem setScale_noop (c : CanvasState) (s fx fy : ℚ)
    (h : clampScale s = c.scale) : setScale c s fx fy = c := by
  unfold setScale
  rw [if_pos h]

/-- Claim C4: setScale clamps the target to [minScale, maxScale], is a
strict no-op when the clamped value equals the current scale, otherwise
re-anchors the offset so that the logical point that sat under the focal
screen position before the zoom sits under it again afterwards, and a
repeated call with the same arguments changes nothing further. -/
theorem setScale_clamps_and_anchors (c : CanvasState) (s fx fy : ℚ)
    (h : c.scale ≠ 0) :
    (setScale c s fx fy).scale = clampScale s ∧
    minScale ≤ (setScale c s fx fy).scale ∧
    (setScale c s fx fy).scale ≤ maxScale ∧
    (clampScale s = c.scale → setScale c s fx fy = c) ∧
    toScreen (setScale c s fx fy) (toCanvas c fx fy).x (toCanvas c fx fy).y
      = ⟨fx, fy⟩ ∧
    setScale (setScale c s fx fy) s fx fy = setScale c s fx fy := by
  by_cases hc : clampScale s = c.scale
  · have hnoop : setScale c s fx fy = c := setScale_noop c s fx fy hc
    refine ⟨by rw [hnoop, hc], ?_, ?_, fun _ => hnoop, ?_, ?_⟩
    · rw [hnoop, ← hc]; exact (clampScale_mem s).1
    · rw [hnoop, ← hc]; exact (clampScale_mem s).2
    · rw [hnoop]
      simp only [toScreen, toCanvas]
      rw [div_mul_cancel₀ _ h, div_mul_cancel₀ _ h,
        sub_add_cancel, sub_add_cancel]
    · rw [hnoop]
      exact hnoop
  · have hstep : setScale c s fx fy =
        { c with scale := clampScale s,
                 offsetX := fx - (fx - c.offsetX) / c.scale * clampScale s,
                 offsetY := fy - (fy - c.offsetY) / c.scale * clampScale s } := by
      unfold setScale
      rw [if_neg hc]
    refine ⟨by rw [hstep], ?_, ?_, fun hcc => absurd hcc hc, ?_, ?_⟩
    · rw [hstep]; exact (clampScale_mem s).1
    · rw [hstep]; exact (clampScale_mem s).2
    · rw [hstep]
      simp only [toScreen, toCanvas]
      simp only [Point.mk.injEq]
      constructor <;> ring
    · exact setScale_noop (setScale c s fx fy) s fx fy (by rw [hstep])

/-- Claim C4, witness: zooming the concrete viewport cView (scale 2,
offset (5, 7)) towards the focal point (11, 13) with target scale 3. -/
theorem setScale_clamps_and_anchors_witness :
    (setScale cView 3 11 13).scale = clampScale 3 ∧
    toScreen (setScale cView 3 11 13) (toCanvas cView 11 13).x
      (toCanvas cView 11 13).y = ⟨11, 13⟩ ∧
    setScale (setScale cView 3 11 13) 3 11 13 = setScale cView 3 11 13 := by
  have h := setScale_clamps_and_anchors cView 3 11 13 (by decide)
  exact ⟨h.1, h.2.2.2.2.1, h.2.2.2.2.2⟩

/-- Claim C6, counterexample.  loadState restores the saved scale without
clamping: loading a state whose scale is 100 leaves the viewport scale at
100, outside [minScale, maxScale] = [0.25, 4]. -/
theorem loadState_scale_unclamped :
    (loadState baseState (some st100)).scale = 100 ∧
    ¬ (minScale ≤ (loadState baseState (some st100)).scale ∧
       (loadState baseState (some st100)).scale ≤ maxScale) := by
  have hs : (loadState baseState (some st100)).scale = 100 := by decide
  refine ⟨hs, ?_⟩
  intro hc
  rw [hs] at hc
  have := hc.2
  norm_num [maxScale] at this

/-- Claim C6 (amended): setScale always leaves the scale inside
[minScale, maxScale], the pinch zoom pre-clamp does as well for every
distance ratio, and reset restores scale 1; loadState however installs
the saved scale unclamped (absent or zero falling back to 1), so after a
load the invariant holds exactly when the loaded value is itself within
bounds. -/
theorem scale_clamped_by_ops :
    (∀ c t fx fy, minScale ≤ (setScale c t fx fy).scale ∧
      (setScale c t fx fy).scale ≤ maxScale) ∧
    (∀ initialScale scaleChange : ℚ,
      minScale ≤ pinchNewScale initialScale scaleChange ∧
      pinchNewScale initialScale scaleChange ≤ maxScale) ∧
    (∀ c, minScale ≤ (reset c).scale ∧ (reset c).scale ≤ maxScale) ∧
    (∀ c s, minScale ≤ jsOrNum s.scale 1 → jsOrNum s.scale 1 ≤ maxScale →
      minScale ≤ (loadState c (some s)).scale ∧
      (loadState c (some s)).scale ≤ maxScale) := by
  refine ⟨?_, ?_, ?_, ?_⟩
  · intro c t fx fy
    by_cases hc : clampScale t = c.scale
    · have hnoop : setScale c t fx fy = c := by
        unfold setScale; rw [if_pos hc]
      rw [hnoop, ← hc]
      exact clampScale_mem t
    · have : (setScale c t fx fy).scale = clampScale t := by
        unfold setScale; rw [if_neg hc]
      rw [this]
      exact clampScale_mem t
  · intro a b
    unfold pinchNewScale
    constructor
    · have : minScale = (25/100 : ℚ) := by norm_num [minScale]
      rw [this]
      exact le_max_left _ _
    · exact max_le (by norm_num [maxScale]) (by
        rw [show maxScale = (4 : ℚ) from rfl]
        exact min_le_left _ _)
  · intro c
    refine ⟨?_, ?_⟩ <;> norm_num [reset, minScale, maxScale]
  · intro c s h1 h2
    exact ⟨h1, h2⟩

/-- Claim C6, witness: loading the concrete saved state stOk whose scale
2 is within bounds keeps the viewport scale within bounds. -/
theorem scale_clamped_by_ops_witness :
    minScale ≤ (loadState baseState (some stOk)).scale ∧
    (loadState baseState (some stOk)).scale ≤ maxScale :=
  scale_clamped_by_ops.2.2.2 baseState stOk
    (by rw [show jsOrNum stOk.scale 1 = 2 from by decide]
        norm_num [minScale])
    (by rw [show jsOrNum stOk.scale 1 = 2 from by decide]
        norm_num [maxScale])

theorem getD_set_ne :
    ∀ (l : List Stroke) (i j : ℕ) (a : Stroke), i ≠ j →
      (l.set i a).getD j .missing = l.getD j .missing := by
  intro l
  induction l with
  | nil => intro i j a _; simp
  | cons b t ih =>
      intro i j a hne
      cases i with
      | zero =>
          cases j with
          | zero => exact absurd rfl hne
          | succ j => simp [List.set]
      | succ i =>
          cases j with
          | zero => simp [List.set]
          | succ j =>
              have := ih i j a (by omega)
              simpa [List.set] using this

theorem getD_set_self :
    ∀ (l : List Stroke) (i : ℕ) (a : Stroke), i < l.length →
      (l.set i a).getD i .missing = a := by
  intro l
  induction l with
  | nil => intro i a h; simp at h
  | cons b t ih =>
      intro i a h
      cases i with
      | zero => simp [List.set]
      | succ i =>
          have := ih i a (by simpa using h)
          simpa [List.set] using this

theorem moveStrokeAt_length (l : List Stroke) (dx dy : ℚ) (i : ℕ) :
    (moveStrokeAt l dx dy i).length = l.length := by
  unfold moveStrokeAt
  by_cases hu : l.getD i Stroke.missing = Stroke.missing
  · rw [if_pos hu]
  · rw [if_neg hu, List.length_set]

theorem moveStrokeAt_getD_ne (l : List Stroke) (dx dy : ℚ) (i j : ℕ)
    (h : i ≠ j) :
    (moveStrokeAt l dx dy i).getD j .missing = l.getD j .missing := by
  unfold moveStrokeAt
  by_cases hu : l.getD i Stroke.missing = Stroke.missing
  · rw [if_pos hu]
  · rw [if_neg hu, getD_set_ne l i j _ h]

theorem translateStroke_missing (dx dy : ℚ) :
    translateStroke Stroke.missing dx dy = Stroke.missing := rfl

theorem moveStrokeAt_getD_self (l : List Stroke) (dx dy : ℚ) (i : ℕ)
    (h : i < l.length) :
    (moveStrokeAt l dx dy i).getD i .missing =
      translateStroke (l.getD i .missing) dx dy := by
  unfold moveStrokeAt
  by_cases hu : l.getD i Stroke.missing = Stroke.missing
  · rw [if_pos hu, hu, translateStroke_missing]
  · rw [if_neg hu, getD_set_self l i _ h]

theorem moveFold_spec :
    ∀ (idxs : List ℕ) (l : List Stroke) (dx dy : ℚ), idxs.Nodup →
      (idxs.foldl (fun acc index => moveStrokeAt acc dx dy index) l).length
          = l.length ∧
      ∀ j, j < l.length →
        (idxs.foldl (fun acc index => moveStrokeAt acc dx dy index) l).getD
            j .missing =
          if j ∈ idxs then translateStroke (l.getD j .missing) dx dy
          else l.getD j .missing := by
  intro idxs
  induction idxs with
  | nil => intro l dx dy _; simp
  | cons a t ih =>
      intro l dx dy hnd
      rw [List.nodup_cons] at hnd
      have hfold : (a :: t).foldl
          (fun acc index => moveStrokeAt acc dx dy index) l =
          t.foldl (fun acc index => moveStrokeAt acc dx dy index)
            (moveStrokeAt l dx dy a) := rfl
      obtain ⟨ihlen, ihget⟩ := ih (moveStrokeAt l dx dy a) dx dy hnd.2
      rw [hfold]
      constructor
      · rw [ihlen, moveStrokeAt_length]
      · intro j hj
        have hj2 : j < (moveStrokeAt l dx dy a).length := by
          rw [moveStrokeAt_length]; exact hj
        rw [ihget j hj2]
        by_cases hja : j = a
        · subst hja
          have hnt : j ∉ t := hnd.1
          rw [if_neg hnt, if_pos (by simp), moveStrokeAt_getD_self l dx dy j hj]
        · rw [moveStrokeAt_getD_ne l dx dy a j (fun hh => hja hh.symm)]
          by_cases hjt : j ∈ t
          · rw [if_pos hjt, if_pos (by simp [hjt])]
          · rw [if_neg hjt, if_neg (by simp [hja, hjt])]

/-- Claim C9: moveStrokes translates exactly the selected strokes in
place, translating every point of a path stroke and only the origin of an
image stroke (width and height unchanged), skips indices that do not name
a stroke, leaves every other stroke untouched, and pushes nothing onto
either history stack. -/
theorem moveStrokes_translates_selected (c : CanvasState) (idxs : List ℕ)
    (dx dy : ℚ) (hnd : idxs.Nodup) :
    (moveStrokes c idxs dx dy).undoStack = c.undoStack ∧
    (moveStrokes c idxs dx dy).redoStack = c.redoStack ∧
    (moveStrokes c idxs dx dy).strokes.length = c.strokes.length ∧
    (∀ j, j < c.strokes.length →
      (moveStrokes c idxs dx dy).strokes.getD j .missing =
        if j ∈ idxs then translateStroke (c.strokes.getD j .missing) dx dy
        else c.strokes.getD j .missing) ∧
    (∀ src x y w h op, translateStroke (.image src x y w h op) dx dy =
      .image src (x + dx) (y + dy) w h op) ∧
    (∀ kind pts color size op,
      translateStroke (.path kind pts color size op) dx dy =
        .path kind (pts.map (fun p => ⟨p.x + dx, p.y + dy⟩))
          color size op) := by
  by_cases he : idxs.isEmpty
  · have hnil : idxs = [] := by
      cases idxs with
      | nil => rfl
      | cons a t => exact absurd he (by simp)
    subst hnil
    have hmv : moveStrokes c [] dx dy = c := by
      unfold moveStrokes
      rfl
    rw [hmv]
    exact ⟨rfl, rfl, rfl, fun j hj => by simp,
      fun src x y w h op => rfl, fun kind pts color size op => rfl⟩
  · have hmv : moveStrokes c idxs dx dy =
        { c with strokes := (idxs.foldl
            (fun l index => moveStrokeAt l dx dy index) c.strokes) } := by
      unfold moveStrokes
      rw [if_neg (by simp [he])]
    obtain ⟨hlen, hget⟩ := moveFold_spec idxs c.strokes dx dy hnd
    rw [hmv]
    exact ⟨rfl, rfl, hlen, hget,
      fun src x y w h op => rfl, fun kind pts color size op => rfl⟩

/-- Claim C9, witness: moving strokes 0 (a path) and 1 (an image) of the
concrete document c9doc by (5, 6) translates both, leaves the history
stacks untouched and preserves the stroke count. -/
theorem moveStrokes_translates_selected_witness :
    (moveStrokes c9doc [0, 1] 5 6).undoStack = c9doc.undoStack ∧
    (moveStrokes c9doc [0, 1] 5 6).redoStack = c9doc.redoStack ∧
    (moveStrokes c9doc [0, 1] 5 6).strokes.length = c9doc.strokes.length ∧
    (moveStrokes c9doc [0, 1] 5 6).strokes.getD 1 .missing =
      translateStroke (c9doc.strokes.getD 1 .missing) 5 6 := by
  have h := moveStrokes_translates_selected c9doc [0, 1] 5 6 (by decide)
  refine ⟨h.1, h.2.1, h.2.2.1, ?_⟩
  have := h.2.2.2.1 1 (by decide)
  rw [this, if_pos (by decide)]

theorem findLoop_all_miss (l : List Stroke) (cp : Point) (st : ℚ) :
    ∀ n, (∀ i, i < n → hitStroke cp st (l.getD i .missing) = false) →
      findLoop l cp st n = -1 := by
  intro n
  induction n with
  | zero => intro _; rfl
  | succ n ih =>
      intro h
      unfold findLoop
      rw [h n (by omega)]
      simp only [Bool.false_eq_true, if_false]
      exact ih (fun i hi => h i (by omega))

theorem findLoop_miss_of_neg_one (l : List Stroke) (cp : Point) (st : ℚ) :
    ∀ n, findLoop l cp st n = -1 →
      ∀ i, i < n → hitStroke cp st (l.getD i .missing) = false := by
  intro n
  induction n with
  | zero => intro _ i hi; omega
  | succ n ih =>
      intro h i hi
      unfold findLoop at h
      by_cases hh : hitStroke cp st (l.getD n .missing) = true
      · rw [hh, if_pos rfl] at h
        have : (n : ℤ) ≠ -1 := by omega
        exact absurd h this
      · have hf : hitStroke cp st (l.getD n .missing) = false :=
          Bool.not_eq_true _ ▸ (Bool.eq_false_iff.mpr hh)
        rw [hf] at h
        simp only [Bool.false_eq_true, if_false] at h
        by_cases hin : i = n
        · subst hin; exact hf
        · exact ih h i (by omega)

theorem findLoop_found (l : List Stroke) (cp : Point) (st : ℚ) :
    ∀ n (i : ℕ), findLoop l cp st n = (i : ℤ) →
      i < n ∧ hitStroke cp st (l.getD i .missing) = true ∧
      ∀ j, i < j → j < n → hitStroke cp st (l.getD j .missing) = false := by
  intro n
  induction n with
  | zero =>
      intro i h
      have : (-1 : ℤ) = (i : ℤ) := h
      omega
  | succ n ih =>
      intro i h
      unfold findLoop at h
      by_cases hh : hitStroke cp st (l.getD n .missing) = true
      · rw [hh, if_pos rfl] at h
        have hin : i = n := by omega
        subst hin
        exact ⟨by omega, hh, fun j hj1 hj2 => by omega⟩
      · have hf : hitStroke cp st (l.getD n .missing) = false :=
          Bool.eq_false_iff.mpr hh
        rw [hf] at h
        simp only [Bool.false_eq_true, if_false] at h
        obtain ⟨h1, h2, h3⟩ := ih i h
        refine ⟨by omega, h2, fun j hj1 hj2 => ?_⟩
        by_cases hjn : j = n
        · subst hjn; exact hf
        · exact h3 j hj1 (by omega)

theorem hypotLe_zero (t : ℚ) (ht : 0 ≤ t) : hypotLe 0 0 t = true := by
  unfold hypotLe
  exact decide_eq_true ⟨ht, by simpa using sq_nonneg t⟩

theorem segDistLe_midpoint (p1 p2 : Point) (t : ℚ) (hne : p1 ≠ p2) :
    segDistLe ⟨(p1.x + p2.x) / 2, (p1.y + p2.y) / 2⟩ p1 p2 t =
      hypotLe 0 0 t := by
  have hL : (p2.x - p1.x) * (p2.x - p1.x) +
      (p2.y - p1.y) * (p2.y - p1.y) ≠ 0 := by
    intro h0
    have h1 := (add_eq_zero_iff_of_nonneg (mul_self_nonneg _)
      (mul_self_nonneg _)).mp h0
    have hx : p2.x - p1.x = 0 := mul_self_eq_zero.mp h1.1
    have hy : p2.y - p1.y = 0 := mul_self_eq_zero.mp h1.2
    apply hne
    obtain ⟨a, b⟩ := p1
    obtain ⟨a2, b2⟩ := p2
    simp only [Point.mk.injEq]
    simp only at hx hy
    constructor <;> linarith
  simp only [segDistLe]
  rw [if_neg hL]
  have ht0 : (((p1.x + p2.x) / 2 : ℚ) - p1.x) * (p2.x - p1.x) +
      (((p1.y + p2.y) / 2 : ℚ) - p1.y) * (p2.y - p1.y) =
      ((p2.x - p1.x) * (p2.x - p1.x) +
        (p2.y - p1.y) * (p2.y - p1.y)) / 2 := by ring
  rw [ht0]
  have h12 : ((p2.x - p1.x) * (p2.x - p1.x) +
      (p2.y - p1.y) * (p2.y - p1.y)) / 2 /
      ((p2.x - p1.x) * (p2.x - p1.x) + (p2.y - p1.y) * (p2.y - p1.y)) =
      1/2 := by
    rw [div_div, show (2 : ℚ) * ((p2.x - p1.x) * (p2.x - p1.x) +
      (p2.y - p1.y) * (p2.y - p1.y)) = ((p2.x - p1.x) * (p2.x - p1.x) +
      (p2.y - p1.y) * (p2.y - p1.y)) * 2 from by ring, ← div_div,
      div_self hL]
  rw [h12, min_eq_right (by norm_num), max_eq_right (by norm_num)]
  congr 1 <;> ring

theorem hitStroke_midpoint (kind : PathKind) (p1 p2 : Point)
    (color : String) (size opacity st : ℚ) (hne : p1 ≠ p2)
    (hsize : 0 < size) (hst : 0 ≤ st) :
    hitStroke ⟨(p1.x + p2.x) / 2, (p1.y + p2.y) / 2⟩ st
      (.path kind [p1, p2] color size opacity) = true := by
  have hht : (0 : ℚ) ≤ st + size / 2 := by linarith
  simp only [hitStroke]
  apply Bool.or_eq_true_iff.mpr
  right
  apply Bool.and_eq_true_iff.mpr
  constructor
  · rfl
  · show ([(p1, p2)].any fun pq =>
      segDistLe ⟨(p1.x + p2.x) / 2, (p1.y + p2.y) / 2⟩ pq.1 pq.2
        (st + size / 2)) = true
    simp only [List.any_cons, List.any_nil, Bool.or_false]
    rw [segDistLe_midpoint p1 p2 _ hne]
    exact hypotLe_zero _ hht

/-- Claim C8: findStrokeAt scans the stroke list from the highest index
down and returns the first (topmost) hit, returning -1 exactly when no
stroke is hit; and for a two point path stroke with distinct points and
positive size, the midpoint of the connecting segment (a point equal to
neither endpoint) always registers as a hit through the segment test. -/
theorem findStrokeAt_topmost_and_segment :
    (∀ (c : CanvasState) (x y th : ℚ), findStrokeAt c x y th = -1 ↔
      ∀ i, i < c.strokes.length →
        hitStroke (toCanvas c x y) (th / c.scale)
          (c.strokes.getD i .missing) = false) ∧
    (∀ (c : CanvasState) (x y th : ℚ) (i : ℕ),
      findStrokeAt c x y th = (i : ℤ) →
      i < c.strokes.length ∧
      hitStroke (toCanvas c x y) (th / c.scale)
        (c.strokes.getD i .missing) = true ∧
      ∀ j, i < j → j < c.strokes.length →
        hitStroke (toCanvas c x y) (th / c.scale)
          (c.strokes.getD j .missing) = false) ∧
    (∀ (kind : PathKind) (p1 p2 : Point) (color : String)
      (size opacity st : ℚ), p1 ≠ p2 → 0 < size → 0 ≤ st →
      ((⟨(p1.x + p2.x) / 2, (p1.y + p2.y) / 2⟩ : Point) ≠ p1 ∧
       (⟨(p1.x + p2.x) / 2, (p1.y + p2.y) / 2⟩ : Point) ≠ p2) ∧
      hitStroke ⟨(p1.x + p2.x) / 2, (p1.y + p2.y) / 2⟩ st
        (.path kind [p1, p2] color size opacity) = true) := by
  refine ⟨?_, ?_, ?_⟩
  · intro c x y th
    constructor
    · intro h
      exact findLoop_miss_of_neg_one c.strokes (toCanvas c x y)
        (th / c.scale) c.strokes.length h
    · intro h
      exact findLoop_all_miss c.strokes (toCanvas c x y)
        (th / c.scale) c.strokes.length h
  · intro c x y th i h
    exact findLoop_found c.strokes (toCanvas c x y)
      (th / c.scale) c.strokes.length i h
  · intro kind p1 p2 color size opacity st hne hsize hst
    refine ⟨⟨?_, ?_⟩, hitStroke_midpoint kind p1 p2 color size opacity st
      hne hsize hst⟩
    · intro hm
      apply hne
      obtain ⟨a, b⟩ := p1
      obtain ⟨a2, b2⟩ := p2
      simp only [Point.mk.injEq] at hm ⊢
      constructor <;> [linarith [hm.1]; linarith [hm.2]]
    · intro hm
      apply hne
      obtain ⟨a, b⟩ := p1
      obtain ⟨a2, b2⟩ := p2
      simp only [Point.mk.injEq] at hm ⊢
      constructor <;> [linarith [hm.1]; linarith [hm.2]]

/-- Claim C8, witness: in the midpoint clause instantiated at the
concrete two point stroke of cHit (endpoints (0,0) and (100,0), size 4)
with scaled threshold 10, the midpoint differs from both endpoints and
the stroke is hit there. -/
theorem findStrokeAt_topmost_and_segment_witness :
    ((⟨((0 : ℚ) + 100) / 2, ((0 : ℚ) + 0) / 2⟩ : Point) ≠ ⟨0, 0⟩ ∧
     (⟨((0 : ℚ) + 100) / 2, ((0 : ℚ) + 0) / 2⟩ : Point) ≠ ⟨100, 0⟩) ∧
    hitStroke ⟨((0 : ℚ) + 100) / 2, ((0 : ℚ) + 0) / 2⟩ 10
      (.path .pencil [⟨0, 0⟩, ⟨100, 0⟩] ("#000000") 4 1) = true := by
  have h := findStrokeAt_topmost_and_segment.2.2 .pencil ⟨0, 0⟩ ⟨100, 0⟩
    ("#000000") 4 1 10 (by decide) (by norm_num) (by norm_num)
  exact h

theorem trig_bboxMinX : bboxMinX trigPts = 0 := by
  simp only [bboxMinX, trigPts, List.foldl_cons, List.foldl_nil]
  norm_num [min_def]

theorem trig_bboxMaxX : bboxMaxX trigPts = 60 := by
  simp only [bboxMaxX, trigPts, List.foldl_cons, List.foldl_nil]
  norm_num [max_def]

theorem trig_bboxMinY : bboxMinY trigPts = 0 := by
  simp only [bboxMinY, trigPts, List.foldl_cons, List.foldl_nil]
  norm_num [min_def]

theorem trig_bboxMaxY : bboxMaxY trigPts = 80 := by
  simp only [bboxMaxY, trigPts, List.foldl_cons, List.foldl_nil]
  norm_num [max_def]

theorem trig_bboxW : bboxW trigPts = 60 := by
  unfold bboxW
  rw [trig_bboxMaxX, trig_bboxMinX]
  norm_num

theorem trig_bboxH : bboxH trigPts = 80 := by
  unfold bboxH
  rw [trig_bboxMaxY, trig_bboxMinY]
  norm_num

theorem trig_center : centerPt trigPts = ⟨30, 40⟩ := by
  unfold centerPt
  rw [trig_bboxMinX, trig_bboxMaxX, trig_bboxMinY, trig_bboxMaxY]
  simp only [Point.mk.injEq]
  norm_num

theorem rdist_eval (p q : Point) (v : ℚ) (hv : 0 ≤ v)
    (h : (p.x - q.x) ^ 2 + (p.y - q.y) ^ 2 = v ^ 2) :
    rdist p q = (v : ℝ) := by
  unfold rdist
  have hcast : ((p.x - q.x : ℚ) : ℝ) ^ 2 + ((p.y - q.y : ℚ) : ℝ) ^ 2 =
      ((v : ℚ) : ℝ) ^ 2 := by
    push_cast
    exact_mod_cast congrArg (fun r : ℚ => (r : ℝ)) h
  rw [hcast, Real.sqrt_sq (by exact_mod_cast hv)]

theorem trig_r0 : rdist ⟨0, 0⟩ ⟨30, 40⟩ = (50 : ℝ) :=
  rdist_eval _ _ 50 (by norm_num) (by norm_num)

theorem trig_r1 : rdist ⟨60, 0⟩ ⟨30, 40⟩ = (50 : ℝ) :=
  rdist_eval _ _ 50 (by norm_num) (by norm_num)

theorem trig_r2 : rdist ⟨45, 40⟩ ⟨30, 40⟩ = (15 : ℝ) :=
  rdist_eval _ _ 15 (by norm_num) (by norm_num)

theorem trig_r3 : rdist ⟨30, 80⟩ ⟨30, 40⟩ = (40 : ℝ) :=
  rdist_eval _ _ 40 (by norm_num) (by norm_num)

theorem trig_r4 : rdist ⟨15, 40⟩ ⟨30, 40⟩ = (15 : ℝ) :=
  rdist_eval _ _ 15 (by norm_num) (by norm_num)

theorem trig_r5 : rdist ⟨3, 4⟩ ⟨30, 40⟩ = (45 : ℝ) :=
  rdist_eval _ _ 45 (by norm_num) (by norm_num)

theorem trig_closed : isClosedProp trigPts := by
  unfold isClosedProp
  have hlast : lastPt trigPts = ⟨3, 4⟩ := by decide
  have hfirst : firstPt trigPts = ⟨0, 0⟩ := by decide
  rw [hlast, hfirst, trig_bboxW, trig_bboxH]
  rw [rdist_eval ⟨3, 4⟩ ⟨0, 0⟩ 5 (by norm_num) (by norm_num)]
  norm_num [max_def]

theorem trig_not_line : ¬ lineCond trigPts := fun h => h.1 trig_closed

theorem trig_avgRadius : avgRadius trigPts = ((215 : ℝ) / 6) := by
  unfold avgRadius
  rw [trig_center]
  simp only [trigPts, List.map_cons, List.map_nil, List.sum_cons,
    List.sum_nil, List.length_cons, List.length_nil]
  rw [trig_r0, trig_r1, trig_r2, trig_r3, trig_r4, trig_r5]
  norm_num

theorem trig_variance : radiusVariance trigPts = ((8225 : ℝ) / 36) := by
  unfold radiusVariance
  rw [trig_center, trig_avgRadius]
  simp only [trigPts, List.map_cons, List.map_nil, List.sum_cons,
    List.sum_nil, List.length_cons, List.length_nil]
  rw [trig_r0, trig_r1, trig_r2, trig_r3, trig_r4, trig_r5]
  norm_num

theorem trig_not_circ : ¬ circCond trigPts := by
  unfold circCond
  rw [trig_variance, trig_avgRadius]
  intro hc
  have hsq : ((43 : ℝ) / 8) ≤ Real.sqrt (8225 / 36) := by
    rw [show ((43 : ℝ) / 8) = Real.sqrt ((43 / 8) ^ 2) from
      (Real.sqrt_sq (by norm_num)).symm]
    apply Real.sqrt_le_sqrt
    norm_num
  have hpos : (0 : ℝ) < 215 / 6 := by norm_num
  have hdiv : ((43 : ℝ) / 8) / (215 / 6) ≤
      Real.sqrt (8225 / 36) / (215 / 6) :=
    (div_le_div_iff_of_pos_right hpos).mpr hsq
  have hval : ((43 : ℝ) / 8) / (215 / 6) = 3 / 20 := by norm_num
  rw [hval] at hdiv
  linarith

theorem trig_edgeThreshold : edgeThresholdQ trigPts = 48/5 := by
  unfold edgeThresholdQ
  rw [trig_bboxW, trig_bboxH]
  norm_num [max_def]

theorem trig_cornerScore : cornerScore trigPts = 3 := by
  have h0 : nearCorner trigPts ⟨0, 0⟩ = true := by
    simp only [nearCorner, trig_bboxMinX, trig_bboxMaxX, trig_bboxMinY,
      trig_bboxMaxY, trig_edgeThreshold]
    exact decide_eq_true (by norm_num)
  have h1 : nearCorner trigPts ⟨60, 0⟩ = true := by
    simp only [nearCorner, trig_bboxMinX, trig_bboxMaxX, trig_bboxMinY,
      trig_bboxMaxY, trig_edgeThreshold]
    exact decide_eq_true (by norm_num)
  have h2 : nearCorner trigPts ⟨45, 40⟩ = false := by
    simp only [nearCorner, trig_bboxMinX, trig_bboxMaxX, trig_bboxMinY,
      trig_bboxMaxY, trig_edgeThreshold]
    exact decide_eq_false (by norm_num)
  have h3 : nearCorner trigPts ⟨30, 80⟩ = false := by
    simp only [nearCorner, trig_bboxMinX, trig_bboxMaxX, trig_bboxMinY,
      trig_bboxMaxY, trig_edgeThreshold]
    exact decide_eq_false (by norm_num)
  have h4 : nearCorner trigPts ⟨15, 40⟩ = false := by
    simp only [nearCorner, trig_bboxMinX, trig_bboxMaxX, trig_bboxMinY,
      trig_bboxMaxY, trig_edgeThreshold]
    exact decide_eq_false (by norm_num)
  have h5 : nearCorner trigPts ⟨3, 4⟩ = true := by
    simp only [nearCorner, trig_bboxMinX, trig_bboxMaxX, trig_bboxMinY,
      trig_bboxMaxY, trig_edgeThreshold]
    exact decide_eq_true (by norm_num)
  unfold cornerScore
  rw [show trigPts = [⟨0, 0⟩, ⟨60, 0⟩, ⟨45, 40⟩, ⟨30, 80⟩, ⟨15, 40⟩,
    (⟨3, 4⟩ : Point)] from rfl] at h0 h1 h2 h3 h4 h5 ⊢
  rw [List.filter_cons, List.filter_cons, List.filter_cons,
    List.filter_cons, List.filter_cons, List.filter_cons]
  rw [h0, h1, h2, h3, h4, h5]
  simp

theorem trig_not_rect : ¬ rectCond trigPts := by
  intro h
  have := h.2
  rw [trig_cornerScore] at this
  omega

theorem snapTrig_none : snapToShapePoints trigPts = none := by
  unfold snapToShapePoints
  rw [if_neg (by decide), if_neg trig_not_line,
    if_neg (fun hh => trig_not_circ hh.2),
    if_neg (fun hh => trig_not_rect hh.2)]

theorem trig_fallback :
    fallbackCorners trigPts = some (⟨0, 0⟩, ⟨60, 0⟩, ⟨30, 80⟩) := by
  unfold fallbackCorners
  rw [trig_center]
  rw [show trigPts.enum = [(0, (⟨0, 0⟩ : Point)), (1, ⟨60, 0⟩),
    (2, ⟨45, 40⟩), (3, ⟨30, 80⟩), (4, ⟨15, 40⟩), (5, ⟨3, 4⟩)] from by decide]
  norm_num [List.insertionSort, List.orderedInsert, radSq, List.foldl,
    List.forall_mem_cons]

theorem trig_no_main_corners : ¬ mainCornersFound trigPts := by
  intro h
  obtain ⟨i1, i2, i3, h1, h2, h3, h4, _⟩ := h
  have hlen : trigPts.length = 6 := by decide
  rw [hlen] at h4
  omega

theorem trig_area :
    bboxArea trigPts * (20/100) < triArea ⟨0, 0⟩ ⟨60, 0⟩ ⟨30, 80⟩ := by
  unfold bboxArea triArea
  rw [trig_bboxW, trig_bboxH]
  norm_num

/-- Claim C7, counterexample.  The claim asserts that snapToShape has a
triangle test: on the concrete closed triangle-like stroke trigPts, which
has 6 points, fails the line, ellipse and rectangle tests, yields fewer
than 3 corners under the main turning-angle detection, and whose
farthest-from-centroid fallback corners (0,0), (60,0), (30,80) span far
more than 20 percent of the bounding box area, the claim would have
snapToShape return those corners plus a closing repeat; the source
snapToShape has no triangle branch at all and returns null there. -/
theorem no_triangle_recognition : ¬ TriangleSnapClaim := by
  intro hclaim
  have h := hclaim trigPts ⟨0, 0⟩ ⟨60, 0⟩ ⟨30, 80⟩ (by decide)
    trig_not_line (fun hh => trig_not_circ hh.2)
    (fun hh => trig_not_rect hh.2) trig_no_main_corners trig_fallback
    trig_area
  rw [snapTrig_none] at h
  exact Option.noConfusion h

/-- Claim C7 (amended): the shape recogniser snapToShape recognises lines,
ellipses and rectangles only; there is no triangle test, and every stroke
of at least 3 points that fails the line, ellipse and rectangle tests is
returned unrecognised (null), its freehand points kept. -/
theorem snapToShape_no_triangle (pts : List Point) (h3 : 3 ≤ pts.length)
    (h1 : ¬ lineCond pts) (h2 : ¬ (isClosedProp pts ∧ circCond pts))
    (h4 : ¬ (isClosedProp pts ∧ rectCond pts)) :
    snapToShapePoints pts = none := by
  unfold snapToShapePoints
  rw [if_neg (by omega), if_neg h1, if_neg h2, if_neg h4]

/-- Claim C7, witness: the amended theorem applied to the concrete stroke
trigPts, whose line, ellipse and rectangle tests all fail. -/
theorem snapToShape_no_triangle_witness :
    snapToShapePoints trigPts = none :=
  snapToShape_no_triangle trigPts (by decide) trig_not_line
    (fun hh => trig_not_circ hh.2) (fun hh => trig_not_rect hh.2)
